import Mathlib

/-!
Verification of the YAML splitting / recombining core of the Vardon repository.

The Python sources embedded here are `src/datasplit.py` (dependency tracker,
event-stream writer, structural analysis, cycle validation, file emission) and
`src/yaml-tools/core/advanced_yaml_combiner.py` (the recombiner).

Modelling conventions:
* YAML parse events (supplied by the external ruamel parser) are the inductive
  type `YEvent`; the spec itself treats the event stream as an external input.
* Python `dict` is an insertion-ordered association list (`dictGet`/`dictSet`);
  Python `set` is a list with membership-guarded insertion (`addDep`), and
  every property that could depend on set-iteration order is either proved for
  all orders or shown order-independent.
* OS path functions (`os.path.abspath`, `os.path.relpath`, `os.path.dirname`,
  separator replacement, `os.path.isabs`) are environment-supplied and appear
  as explicit function parameters (`absJoin`, `norm`, `relp`, `dirname`,
  `slash`, `isAbs`).
* Python's builtin `sorted` (a stable comparison sort) is modelled by the
  insertion sort `sortLe`, which is extensionally the sorted-permutation it
  contracts to produce; the comparison on strings is the code-point
  lexicographic order `strLe`, matching Python string comparison.
* Exceptions (`raise ValueError(...)` and failing `assert`s) are
  `Except String`; the message strings mirror the Python message text.
-/

/-! ## Association-list model of Python dict -/

def dictGet {α : Type} : List (String × α) → String → Option α
  | [], _ => none
  | (k, v) :: rest, key => if k = key then some v else dictGet rest key

def dictSet {α : Type} : List (String × α) → String → α → List (String × α)
  | [], key, v => [(key, v)]
  | (k, w) :: rest, key, v =>
      if k = key then (k, v) :: rest else (k, w) :: dictSet rest key v

theorem dictGet_dictSet_self {α : Type} (l : List (String × α)) (k : String) (v : α) :
    dictGet (dictSet l k v) k = some v := by
  induction l with
  | nil => simp [dictGet, dictSet]
  | cons hd tl ih =>
      by_cases h : hd.1 = k
      · simp [dictGet, dictSet, h]
      · simp [dictGet, dictSet, h, ih]

theorem dictGet_eq_none_iff {α : Type} (l : List (String × α)) (k : String) :
    dictGet l k = none ↔ k ∉ l.map Prod.fst := by
  induction l with
  | nil => simp [dictGet]
  | cons hd tl ih =>
      by_cases h : hd.1 = k
      · simp [dictGet, h]
      · simp [dictGet, h, ih, Ne.symm h]

theorem dictGet_isSome_mem {α : Type} {l : List (String × α)} {k : String} {v : α}
    (h : dictGet l k = some v) : k ∈ l.map Prod.fst := by
  by_contra hmem
  rw [← dictGet_eq_none_iff] at hmem
  rw [hmem] at h
  exact Option.noConfusion h

/-! ## Lexicographic string comparison (Python string `<`/`sorted` order) -/

def lexLe : List Char → List Char → Bool
  | [], _ => true
  | _ :: _, [] => false
  | a :: as, b :: bs => if a = b then lexLe as bs else decide (a < b)

def strLe (a b : String) : Bool := lexLe a.data b.data

theorem lexLe_trans : ∀ {a b c : List Char},
    lexLe a b = true → lexLe b c = true → lexLe a c = true
  | [], _, _, _, _ => rfl
  | _ :: _, [], _, h, _ => by simp [lexLe] at h
  | _ :: _, _ :: _, [], _, h => by simp [lexLe] at h
  | x :: xs, y :: ys, z :: zs, h1, h2 => by
      by_cases hxy : x = y
      · subst hxy
        by_cases hyz : x = z
        · subst hyz
          simp only [lexLe, if_pos rfl] at h1 h2 ⊢
          exact lexLe_trans h1 h2
        · simp only [lexLe, if_pos rfl] at h1
          simp only [lexLe, if_neg hyz] at h2 ⊢
          exact h2
      · by_cases hyz : y = z
        · subst hyz
          simp only [lexLe, if_neg hxy] at h1 ⊢
          exact h1
        · simp only [lexLe, if_neg hxy] at h1
          simp only [lexLe, if_neg hyz] at h2
          have hxz : x < z := lt_trans (of_decide_eq_true h1) (of_decide_eq_true h2)
          have hne : x ≠ z := ne_of_lt hxz
          simp only [lexLe, if_neg hne]
          exact decide_eq_true hxz

theorem lexLe_total : ∀ (a b : List Char), lexLe a b = true ∨ lexLe b a = true
  | [], _ => Or.inl rfl
  | _ :: _, [] => Or.inr rfl
  | x :: xs, y :: ys => by
      by_cases hxy : x = y
      · subst hxy
        simp only [lexLe, if_pos rfl]
        exact lexLe_total xs ys
      · rcases lt_or_gt_of_ne hxy with h | h
        · exact Or.inl (by simp only [lexLe, if_neg hxy]; exact decide_eq_true h)
        · refine Or.inr ?_
          simp only [lexLe, if_neg (Ne.symm hxy)]
          exact decide_eq_true h

theorem lexLe_antisymm : ∀ {a b : List Char},
    lexLe a b = true → lexLe b a = true → a = b
  | [], [], _, _ => rfl
  | [], _ :: _, _, h => by simp [lexLe] at h
  | _ :: _, [], h, _ => by simp [lexLe] at h
  | x :: xs, y :: ys, h1, h2 => by
      by_cases hxy : x = y
      · subst hxy
        simp only [lexLe, if_pos rfl] at h1 h2
        rw [lexLe_antisymm h1 h2]
      · simp only [lexLe, if_neg hxy] at h1
        simp only [lexLe, if_neg (Ne.symm hxy)] at h2
        exact absurd (of_decide_eq_true h2) (asymm (of_decide_eq_true h1))

theorem strLe_trans {a b c : String} (h1 : strLe a b = true) (h2 : strLe b c = true) :
    strLe a c = true := lexLe_trans h1 h2

theorem strLe_total (a b : String) : strLe a b = true ∨ strLe b a = true :=
  lexLe_total a.data b.data

theorem strLe_antisymm {a b : String} (h1 : strLe a b = true) (h2 : strLe b a = true) :
    a = b := by
  have := lexLe_antisymm h1 h2
  cases a; cases b; simp_all

/-! ## Insertion sort modelling Python `sorted` -/

def insertLe {α : Type} (le : α → α → Bool) (a : α) : List α → List α
  | [] => [a]
  | b :: bs => if le a b then a :: b :: bs else b :: insertLe le a bs

def sortLe {α : Type} (le : α → α → Bool) : List α → List α
  | [] => []
  | x :: xs => insertLe le x (sortLe le xs)

theorem insertLe_perm {α : Type} (le : α → α → Bool) (a : α) (l : List α) :
    (insertLe le a l).Perm (a :: l) := by
  induction l with
  | nil => simp [insertLe]
  | cons b bs ih =>
      by_cases h : le a b = true
      · simp [insertLe, h]
      · simp only [insertLe, if_neg h]
        exact ((ih.cons b).trans (List.Perm.swap a b bs))

theorem sortLe_perm {α : Type} (le : α → α → Bool) (l : List α) :
    (sortLe le l).Perm l := by
  induction l with
  | nil => simp [sortLe]
  | cons x xs ih =>
      exact (insertLe_perm le x (sortLe le xs)).trans (ih.cons x)

theorem insertLe_pairwise {α : Type} {le : α → α → Bool}
    (htot : ∀ x y, le x y = true ∨ le y x = true)
    (htrans : ∀ x y z, le x y = true → le y z = true → le x z = true)
    (a : α) {l : List α} (h : l.Pairwise (fun x y => le x y = true)) :
    (insertLe le a l).Pairwise (fun x y => le x y = true) := by
  induction l with
  | nil => simp [insertLe]
  | cons b bs ih =>
      rcases List.pairwise_cons.mp h with ⟨hb, hbs⟩
      by_cases hab : le a b = true
      · simp only [insertLe, if_pos hab]
        refine List.pairwise_cons.mpr ⟨?_, h⟩
        intro x hx
        rcases List.mem_cons.mp hx with rfl | hx
        · exact hab
        · exact htrans a b x hab (hb x hx)
      · simp only [insertLe, if_neg hab]
        refine List.pairwise_cons.mpr ⟨?_, ih hbs⟩
        intro x hx
        have hx2 := (insertLe_perm le a bs).mem_iff.mp hx
        rcases List.mem_cons.mp hx2 with rfl | hx2
        · rcases htot x b with h1 | h1
          · exact absurd h1 hab
          · exact h1
        · exact hb x hx2

theorem sortLe_pairwise {α : Type} {le : α → α → Bool}
    (htot : ∀ x y, le x y = true ∨ le y x = true)
    (htrans : ∀ x y z, le x y = true → le y z = true → le x z = true)
    (l : List α) : (sortLe le l).Pairwise (fun x y => le x y = true) := by
  induction l with
  | nil => simp [sortLe]
  | cons x xs ih => exact insertLe_pairwise htot htrans x ih

theorem sortLe_eq_of_perm {α : Type} {le : α → α → Bool}
    (htot : ∀ x y, le x y = true ∨ le y x = true)
    (htrans : ∀ x y z, le x y = true → le y z = true → le x z = true)
    (hanti : ∀ x y, le x y = true → le y x = true → x = y)
    {l₁ l₂ : List α} (h : l₁.Perm l₂) : sortLe le l₁ = sortLe le l₂ := by
  haveI : IsAntisymm α (fun x y => le x y = true) := ⟨hanti⟩
  have hp : (sortLe le l₁).Perm (sortLe le l₂) :=
    (sortLe_perm le l₁).trans (h.trans (sortLe_perm le l₂).symm)
  exact List.eq_of_perm_of_sorted hp (sortLe_pairwise htot htrans l₁)
    (sortLe_pairwise htot htrans l₂)

/-! ## YAML parse events (the external event stream of `ruamel.yaml`) -/

inductive YEvent where
  | streamStart
  | streamEnd
  | docStart
  | docEnd
  | seqStart (anchor : Option String)
  | seqEnd
  | mapStart (anchor : Option String)
  | mapEnd
  | scalar (value : String) (anchor : Option String)
  | aliasEv (name : String)
deriving DecidableEq, Repr

/-- Python truthiness for an optional string: `None` and `""` are falsy. -/
def truthyS : Option String → Bool
  | none => false
  | some s => s ≠ ""

/-! ## YAMLDependencyTracker (`src/datasplit.py` lines 16-44) -/

structure YAMLDependencyTracker where
  anchor_locations : List (String × String)
  file_dependencies : List (String × List String)
deriving DecidableEq, Repr

def emptyTracker : YAMLDependencyTracker := ⟨[], []⟩

/-- `register_anchor`: `self.anchor_locations[anchor_name] = os.path.abspath(source_file)`.
`norm` stands for `os.path.abspath`. -/
def registerAnchor (norm : String → String) (t : YAMLDependencyTracker)
    (anchorName sourceFile : String) : YAMLDependencyTracker :=
  { t with anchor_locations := dictSet t.anchor_locations anchorName (norm sourceFile) }

/-- Set-semantics insertion into `file_dependencies` (`dict` of `set` in Python):
ensure the key exists, then `add` the dependency (no duplicates). -/
def addDep : List (String × List String) → String → String → List (String × List String)
  | [], u, s => [(u, [s])]
  | (k, v) :: rest, u, s =>
      if k = u then (k, if s ∈ v then v else v ++ [s]) :: rest
      else (k, v) :: addDep rest u s

/-- `register_alias_usage` (`src/datasplit.py` lines 35-44): normalise the using
file with `os.path.abspath` (`norm`); if the alias resolves in the anchor
registry and its defining file differs from the using file, add a dependency
edge; otherwise leave the tracker untouched. -/
def registerAliasUsage (norm : String → String) (t : YAMLDependencyTracker)
    (aliasName usingFile : String) : YAMLDependencyTracker :=
  match dictGet t.anchor_locations aliasName with
  | none => t
  | some src =>
      if src = norm usingFile then t
      else { t with file_dependencies := addDep t.file_dependencies (norm usingFile) src }

theorem registerAliasUsage_anchor_locations (norm : String → String)
    (t : YAMLDependencyTracker) (a u : String) :
    (registerAliasUsage norm t a u).anchor_locations = t.anchor_locations := by
  unfold registerAliasUsage
  cases dictGet t.anchor_locations a with
  | none => rfl
  | some src =>
      by_cases h : src = norm u
      · simp [h]
      · simp [h]

theorem addDep_idem (l : List (String × List String)) (u s : String) :
    addDep (addDep l u s) u s = addDep l u s := by
  induction l with
  | nil => simp [addDep]
  | cons hd tl ih =>
      by_cases h : hd.1 = u
      · rcases hd with ⟨k, v⟩
        simp only at h
        subst h
        by_cases hs : s ∈ v
        · simp [addDep, hs]
        · simp [addDep, hs]
      · rcases hd with ⟨k, v⟩
        simp only at h
        simp [addDep, h, ih]

/-- **C4.** Self-reference elision: when the alias resolves to the very file
that is using it (after `os.path.abspath` normalisation on both sides),
`register_alias_usage` adds no dependency edge — the tracker is unchanged. -/
theorem registerAliasUsage_self_no_edge (norm : String → String)
    (t : YAMLDependencyTracker) (a u : String)
    (h : dictGet t.anchor_locations a = some (norm u)) :
    registerAliasUsage norm t a u = t := by
  unfold registerAliasUsage
  rw [h]
  simp

theorem registerAliasUsage_self_no_edge_witness :
    dictGet (YAMLDependencyTracker.mk [("leather", "/out/armors.yaml")] []).anchor_locations
        ("leather") = some (id "/out/armors.yaml") ∧
    registerAliasUsage id (YAMLDependencyTracker.mk [("leather", "/out/armors.yaml")] [])
        ("leather") ("/out/armors.yaml")
      = YAMLDependencyTracker.mk [("leather", "/out/armors.yaml")] [] :=
  ⟨by decide,
   registerAliasUsage_self_no_edge id
     (YAMLDependencyTracker.mk [("leather", "/out/armors.yaml")] [])
     ("leather") ("/out/armors.yaml") (by decide)⟩

/-- **C6.** Repeating `register_alias_usage` with the same anchor name and the
same using file is idempotent: after the first call the dependency sets never
change again (Python `set.add` duplicates collapse). -/
theorem registerAliasUsage_idem (norm : String → String)
    (t : YAMLDependencyTracker) (a u : String) :
    registerAliasUsage norm (registerAliasUsage norm t a u) a u
      = registerAliasUsage norm t a u := by
  cases hl : dictGet t.anchor_locations a with
  | none =>
      have h1 : registerAliasUsage norm t a u = t := by
        unfold registerAliasUsage
        rw [hl]
      rw [h1, h1]
  | some src =>
      by_cases h : src = norm u
      · have h1 : registerAliasUsage norm t a u = t := by
          unfold registerAliasUsage
          rw [hl]
          simp [h]
        rw [h1, h1]
      · have h1 : registerAliasUsage norm t a u =
            { t with file_dependencies := addDep t.file_dependencies (norm u) src } := by
          unfold registerAliasUsage
          rw [hl]
          simp [h]
        rw [h1]
        have h2 : dictGet ({ t with
            file_dependencies := addDep t.file_dependencies (norm u) src } :
              YAMLDependencyTracker).anchor_locations a = some src := hl
        unfold registerAliasUsage
        rw [h2]
        simp [h, addDep_idem]

/-- **C10.** An alias name absent from the anchor registry leaves the tracker
completely unchanged (`anchor_locations` and `file_dependencies` both keep
their values); `register_alias_usage` returns normally, silently dropping the
usage. -/
theorem registerAliasUsage_unresolved_frame (norm : String → String)
    (t : YAMLDependencyTracker) (a u : String)
    (h : dictGet t.anchor_locations a = none) :
    registerAliasUsage norm t a u = t := by
  unfold registerAliasUsage
  rw [h]

theorem registerAliasUsage_unresolved_frame_witness :
    dictGet (YAMLDependencyTracker.mk [("leather", "/out/armors.yaml")]
        [("/out/w.yaml", ["/out/a.yaml"])]).anchor_locations ("ghost") = none ∧
    registerAliasUsage id
        (YAMLDependencyTracker.mk [("leather", "/out/armors.yaml")]
          [("/out/w.yaml", ["/out/a.yaml"])]) ("ghost") ("/out/w.yaml")
      = YAMLDependencyTracker.mk [("leather", "/out/armors.yaml")]
          [("/out/w.yaml", ["/out/a.yaml"])] :=
  ⟨by decide,
   registerAliasUsage_unresolved_frame id
     (YAMLDependencyTracker.mk [("leather", "/out/armors.yaml")]
       [("/out/w.yaml", ["/out/a.yaml"])]) ("ghost") ("/out/w.yaml") (by decide)⟩

/-! ## EventStreamWriter (`src/datasplit.py` lines 60-126, the second pass) -/

structure EventStreamWriter where
  depth : Int
  current_section : Option String
  events_by_file : List (String × List YEvent)
  in_sequence : Bool
  in_document : Bool
deriving DecidableEq, Repr

def initWriter : EventStreamWriter :=
  { depth := 0, current_section := none, events_by_file := [],
    in_sequence := false, in_document := false }

/-- The state-update portion of `EventStreamWriter.process_event`
(lines 73-104): document/nesting bookkeeping and top-level section detection.
Note `DocumentStartEvent` resets depth only when no section is active, and a
scalar becomes the current section only at depth 0, outside sequences, inside
a document. -/
def writerUpdate (s : EventStreamWriter) (e : YEvent) : EventStreamWriter :=
  match e with
  | .streamStart =>
      { s with depth := 0, current_section := none,
               in_sequence := false, in_document := false }
  | .streamEnd => s
  | .docStart =>
      if truthyS s.current_section then { s with in_document := true }
      else { s with in_document := true, depth := 0 }
  | .docEnd => { s with in_document := false }
  | .seqStart _ => { s with in_sequence := true, depth := s.depth + 1 }
  | .seqEnd => { s with in_sequence := false, depth := s.depth - 1 }
  | .mapStart _ => { s with depth := s.depth + 1 }
  | .mapEnd => { s with depth := s.depth - 1 }
  | .scalar v _ =>
      if s.depth = 0 && !s.in_sequence && s.in_document then
        { s with current_section := some v }
      else s
  | .aliasEv _ => s

/-- `get_target_file` guarded by the Python truthiness tests
`if self.current_section:` and `if target_file:`. -/
def targetFileOf (stf : List (String × String)) (s : EventStreamWriter) : Option String :=
  match s.current_section with
  | none => none
  | some sec =>
      if sec = "" then none
      else
        match dictGet stf sec with
        | none => none
        | some f => if f = "" then none else some f

def isStructuralEvent : YEvent → Bool
  | .streamStart => true
  | .streamEnd => true
  | .docStart => true
  | .docEnd => true
  | _ => false

def appendEventTo : List (String × List YEvent) → String → YEvent → List (String × List YEvent)
  | [], f, e => [(f, [e])]
  | (k, evs) :: rest, f, e =>
      if k = f then (k, evs ++ [e]) :: rest else (k, evs) :: appendEventTo rest f e

/-- `EventStreamWriter.process_event` (lines 69-122): update state, then, when
a target file is active, append structural bracketing events unconditionally
and content events only while a document is open. -/
def processEvent (stf : List (String × String)) (s : EventStreamWriter) (e : YEvent) :
    EventStreamWriter :=
  match targetFileOf stf (writerUpdate s e) with
  | none => writerUpdate s e
  | some f =>
      if isStructuralEvent e then
        { writerUpdate s e with
            events_by_file := appendEventTo (writerUpdate s e).events_by_file f e }
      else if (writerUpdate s e).in_document then
        { writerUpdate s e with
            events_by_file := appendEventTo (writerUpdate s e).events_by_file f e }
      else writerUpdate s e

def runWriter (stf : List (String × String)) (events : List YEvent) : EventStreamWriter :=
  events.foldl (processEvent stf) initWriter

/-- Whether `process_event` appends event `e` to file `f`'s buffer, given the
post-update control state `s1`. -/
def writerAdmits (stf : List (String × String)) (s1 : EventStreamWriter)
    (e : YEvent) (f : String) : Bool :=
  match targetFileOf stf s1 with
  | none => false
  | some g => g = f && (isStructuralEvent e || s1.in_document)

/-- The chronological subsequence of `events` that lands in file `f`'s buffer. -/
def writerTrace (stf : List (String × String)) (f : String) :
    EventStreamWriter → List YEvent → List YEvent
  | _, [] => []
  | s, e :: rest =>
      (if writerAdmits stf (writerUpdate s e) e f then [e] else [])
        ++ writerTrace stf f (processEvent stf s e) rest

def bufferOf (s : EventStreamWriter) (f : String) : List YEvent :=
  (dictGet s.events_by_file f).getD []

theorem bufferOf_appendEventTo (l : List (String × List YEvent)) (g f : String) (e : YEvent) :
    (dictGet (appendEventTo l g e) f).getD []
      = (dictGet l f).getD [] ++ (if g = f then [e] else []) := by
  induction l with
  | nil =>
      by_cases h : g = f
      · simp [appendEventTo, dictGet, h]
      · simp [appendEventTo, dictGet, h]
  | cons hd tl ih =>
      rcases hd with ⟨k, evs⟩
      by_cases hk : k = g
      · subst hk
        by_cases hf : k = f
        · simp [appendEventTo, dictGet, hf]
        · simp [appendEventTo, dictGet, hf]
      · by_cases hf : k = f
        · subst hf
          simp only [appendEventTo, if_neg hk, dictGet, if_pos rfl]
          have : ¬ g = k := fun hgk => hk hgk.symm
          simp [this]
        · simp [appendEventTo, dictGet, hk, hf, ih]

theorem bufferOf_processEvent (stf : List (String × String)) (s : EventStreamWriter)
    (e : YEvent) (f : String) :
    bufferOf (processEvent stf s e) f
      = bufferOf s f ++ (if writerAdmits stf (writerUpdate s e) e f then [e] else []) := by
  have hbuf : (writerUpdate s e).events_by_file = s.events_by_file := by
    cases e <;> simp [writerUpdate] <;> split <;> rfl
  unfold processEvent writerAdmits bufferOf
  cases htg : targetFileOf stf (writerUpdate s e) with
  | none =>
      simp [hbuf]
  | some g =>
      by_cases hstruct : isStructuralEvent e = true
      · by_cases hgf : g = f
        · simp [hstruct, hbuf, bufferOf_appendEventTo, hgf]
        · simp [hstruct, hbuf, bufferOf_appendEventTo, hgf]
      · by_cases hdoc : (writerUpdate s e).in_document = true
        · by_cases hgf : g = f
          · simp [hstruct, hdoc, hbuf, bufferOf_appendEventTo, hgf]
          · simp [hstruct, hdoc, hbuf, bufferOf_appendEventTo, hgf]
        · have hdoc2 : (writerUpdate s e).in_document = false := by
            exact Bool.not_eq_true _ |>.mp hdoc
          simp [hstruct, hdoc2, hbuf]

/-- **C3 (amended).** Buffer characterisation of the second-pass partitioner:
each output file's event buffer is exactly the chronological subsequence of
events for which that file was the active target after the state update, a
structural bracketing event being admitted regardless of document state and a
content event only while a document is open. In particular structural events
are appended only to the currently-active file's buffer — they are not
replicated into every file's buffer. -/
theorem processEvent_buffer_characterisation (stf : List (String × String))
    (f : String) (events : List YEvent) (s : EventStreamWriter) :
    bufferOf (events.foldl (processEvent stf) s) f
      = bufferOf s f ++ writerTrace stf f s events := by
  induction events generalizing s with
  | nil => simp [writerTrace]
  | cons e rest ih =>
      simp only [List.foldl_cons, writerTrace]
      rw [ih (processEvent stf s e), bufferOf_processEvent, List.append_assoc]

/-- **C3 (counterexample to the claim as stated).** In the run below the file
`fa` receives a content event (the scalar), yet neither the stream-start nor
the document-start bracketing event was replicated into its buffer: those were
processed while no section was active and were dropped. -/
theorem processEvent_no_replication_counterexample :
    bufferOf (runWriter [("a", "fa")]
        [YEvent.streamStart, YEvent.docStart, YEvent.scalar ("a") none,
         YEvent.docEnd, YEvent.streamEnd]) ("fa")
      = [YEvent.scalar ("a") none, YEvent.docEnd, YEvent.streamEnd] ∧
    YEvent.scalar ("a") none
        ∈ bufferOf (runWriter [("a", "fa")]
            [YEvent.streamStart, YEvent.docStart, YEvent.scalar ("a") none,
             YEvent.docEnd, YEvent.streamEnd]) ("fa") ∧
    YEvent.streamStart
        ∉ bufferOf (runWriter [("a", "fa")]
            [YEvent.streamStart, YEvent.docStart, YEvent.scalar ("a") none,
             YEvent.docEnd, YEvent.streamEnd]) ("fa") ∧
    YEvent.docStart
        ∉ bufferOf (runWriter [("a", "fa")]
            [YEvent.streamStart, YEvent.docStart, YEvent.scalar ("a") none,
             YEvent.docEnd, YEvent.streamEnd]) ("fa") := by
  refine ⟨by decide, by decide, by decide, by decide⟩

/-! ## Analysis pass (`YAMLSplitter.analyze_structure`, lines 140-238) -/

/-- Context tracking inside the `analyze_structure` event loop (lines 207-220):
a mapping-start pushes the current section (when truthy), a mapping-end pops
into the current section (when the stack is non-empty), and a scalar seen with
an empty context path becomes the new current section. All other events leave
the context state unchanged. -/
def contextStep : List String × Option String → YEvent → List String × Option String
  | (path, sec), .mapStart _ =>
      if truthyS sec then (path ++ [sec.getD ""], sec) else (path, sec)
  | (path, sec), .mapEnd =>
      match path.getLast? with
      | some last => (path.dropLast, some last)
      | none => (path, sec)
  | (path, sec), .scalar v _ => if path.isEmpty then (path, some v) else (path, sec)
  | st, _ => st

/-- Anchor registration guard inside `_process_event` (lines 148-155): the
event's anchor and the current section must both be truthy and the section
must be mapped. -/
def maybeRegisterAnchor (norm : String → String) (stf : List (String × String))
    (sec : Option String) (t : YAMLDependencyTracker) (anc : Option String) :
    YAMLDependencyTracker :=
  match anc with
  | none => t
  | some a =>
      if a = "" then t
      else
        match sec with
        | none => t
        | some s =>
            if s = "" then t
            else
              match dictGet stf s with
              | none => t
              | some f => registerAnchor norm t a f

/-- `YAMLSplitter._process_event` (lines 140-155): aliases register a usage
(when a mapped section is active); scalar / sequence-start / mapping-start
events carrying an anchor register the anchor. -/
def processAnalysisEvent (norm : String → String) (stf : List (String × String))
    (sec : Option String) (t : YAMLDependencyTracker) (e : YEvent) :
    YAMLDependencyTracker :=
  match e with
  | .aliasEv name =>
      match sec with
      | none => t
      | some s =>
          if s = "" then t
          else
            match dictGet stf s with
            | none => t
            | some f => registerAliasUsage norm t name f
  | .scalar _ anc => maybeRegisterAnchor norm stf sec t anc
  | .seqStart anc => maybeRegisterAnchor norm stf sec t anc
  | .mapStart anc => maybeRegisterAnchor norm stf sec t anc
  | _ => t

structure AnalyzeState where
  contextPath : List String
  currentSection : Option String
  tracker : YAMLDependencyTracker
deriving DecidableEq, Repr

def initAnalyzeState : AnalyzeState := ⟨[], none, emptyTracker⟩

/-- One iteration of the `analyze_structure` event loop: context tracking
first, then `_process_event` with the updated current section. -/
def analyzeStep (norm : String → String) (stf : List (String × String))
    (st : AnalyzeState) (e : YEvent) : AnalyzeState :=
  { contextPath := (contextStep (st.contextPath, st.currentSection) e).1,
    currentSection := (contextStep (st.contextPath, st.currentSection) e).2,
    tracker := processAnalysisEvent norm stf
      (contextStep (st.contextPath, st.currentSection) e).2 st.tracker e }

/-- Inner loop of the section-to-file mapping construction (lines 180-185):
each section of one entry's `content` list is added, rejecting duplicates. -/
def addSections (outFile : String) : List String → List (String × String) →
    Except String (List (String × String))
  | [], acc => .ok acc
  | s :: rest, acc =>
      if (dictGet acc s).isSome then .error ("Duplicate section mapping: " ++ s)
      else addSections outFile rest (acc ++ [(s, outFile)])

/-- Section-to-file mapping construction (lines 171-185): a file-mapping entry
is `(output key, path, content sections)`; an empty path is a missing-path
error; `absJoin` stands for `os.path.abspath(os.path.join("output", path))`. -/
def buildS2F (absJoin : String → String) :
    List (String × String × List String) → List (String × String) →
    Except String (List (String × String))
  | [], acc => .ok acc
  | (key, p, content) :: rest, acc =>
      if p = "" then .error ("Missing path for output key: " ++ key)
      else
        match addSections (absJoin p) content acc with
        | .error e => .error e
        | .ok acc2 => buildS2F absJoin rest acc2

def buildSectionToFile (absJoin : String → String)
    (fm : List (String × String × List String)) : Except String (List (String × String)) :=
  buildS2F absJoin fm []

/-- The mapped-section existence check (lines 197-199): every section named in
the mapping must be a top-level key of the parsed document. -/
def firstMissing (parsedKeys : List String) : List String → Except String Unit
  | [] => .ok ()
  | s :: rest =>
      if s ∈ parsedKeys then firstMissing parsedKeys rest
      else .error ("Mapped section not found in YAML: " ++ s)

/-- The `assert not context_path` balance check at line 226. -/
def contextAssert (st : AnalyzeState) : Except String Unit :=
  if st.contextPath.isEmpty then .ok ()
  else .error ("Context path not empty after processing")

/-! ## Cycle validation (`YAMLSplitter._validate_dependencies`, lines 240-286) -/

def depsOf (g : List (String × List String)) (f : String) : List String :=
  (dictGet g f).getD []

def graphKeys (g : List (String × List String)) : List String := g.map Prod.fst

def graphNodes (g : List (String × List String)) : List String :=
  graphKeys g ++ (g.map Prod.snd).flatten

/-- The anchor-location sanity assertions (lines 249-252); `isAbs` stands for
`os.path.isabs`. -/
def anchorsPathCheck (isAbs : String → Bool) : List (String × String) → Except String Unit
  | [] => .ok ()
  | (_, f) :: rest =>
      if isAbs f then anchorsPathCheck isAbs rest
      else .error ("Invalid anchor location path: " ++ f)

/-- Python `path[path.index(file):]`: the suffix starting at the first
occurrence. -/
def dropToMember (a : String) : List String → List String
  | [] => []
  | b :: bs => if b = a then b :: bs else dropToMember a bs

def cycleMessage (c : List String) : String :=
  "Circular dependency detected: " ++ String.intercalate (" -> ") c

def fuelMessage : String := "internal recursion fuel exhausted"

mutual

/-- `check_circular` (lines 258-276): depth-first search with an explicit
recursion path and a global visited set. The `fuel` argument bounds the
recursion depth of the functional model; `validateDependencies` supplies fuel
that is proved never to run out. -/
def checkCircular (g : List (String × List String)) (fuel : Nat) (file : String)
    (path visited : List String) : Except String (List String) :=
  match fuel with
  | 0 => .error fuelMessage
  | fuel2 + 1 =>
      if file ∈ path then
        .error (cycleMessage (dropToMember file path ++ [file]))
      else if file ∈ visited then .ok visited
      else checkCircularList g fuel2 (depsOf g file) (path ++ [file]) (file :: visited)
termination_by (fuel, 0)

/-- The `for dep in deps: check_circular(dep)` loop, threading the visited
set. -/
def checkCircularList (g : List (String × List String)) (fuel : Nat)
    (ds : List String) (path visited : List String) : Except String (List String) :=
  match ds with
  | [] => .ok visited
  | d :: rest =>
      match checkCircular g fuel d path visited with
      | .error e => .error e
      | .ok v => checkCircularList g fuel rest path v
termination_by (fuel, ds.length + 1)

end

/-- The `for file in self.tracker.file_dependencies: check_circular(file)`
loop (lines 278-280). -/
def checkAllFiles (g : List (String × List String)) (fuel : Nat) :
    List String → List String → Except String (List String)
  | [], visited => .ok visited
  | k :: ks, visited =>
      match checkCircular g fuel k [] visited with
      | .error e => .error e
      | .ok v => checkAllFiles g fuel ks v

def dependencyFuel (g : List (String × List String)) : Nat := (graphNodes g).length + 1

/-- The trailing check that every dependency targets a known output file
(lines 282-286). -/
def firstDangling (outputs : List String) : List String → Except String Unit
  | [] => .ok ()
  | d :: rest =>
      if d ∈ outputs then firstDangling outputs rest
      else .error ("Dependency points to non-existent file: " ++ d)

/-- `YAMLSplitter._validate_dependencies`: anchor-path assertions, then the
circular-dependency DFS over every file with outgoing edges, then the
dangling-dependency check against the known output files. -/
def validateDependencies (isAbs : String → Bool) (t : YAMLDependencyTracker)
    (stf : List (String × String)) : Except String Unit :=
  match anchorsPathCheck isAbs t.anchor_locations with
  | .error e => .error e
  | .ok _ =>
      match checkAllFiles t.file_dependencies (dependencyFuel t.file_dependencies)
          (graphKeys t.file_dependencies) [] with
      | .error e => .error e
      | .ok _ =>
          firstDangling (stf.map Prod.snd) ((t.file_dependencies.map Prod.snd).flatten)

/-- `YAMLSplitter.analyze_structure` (lines 157-238): build and validate the
section-to-file mapping, check mapped sections exist among the parsed
top-level keys, run the event loop, assert the context path is balanced, then
validate dependencies. Returns the dependency dictionary of the plan. -/
def analyzeTail (isAbs : String → Bool) (stf : List (String × String))
    (final : AnalyzeState) : Except String (List (String × List String)) :=
  match contextAssert final with
  | .error e => .error e
  | .ok _ =>
      match validateDependencies isAbs final.tracker stf with
      | .error e => .error e
      | .ok _ => .ok final.tracker.file_dependencies

def analyzeStructure (absJoin norm : String → String) (isAbs : String → Bool)
    (fm : List (String × String × List String)) (parsedKeys : List String)
    (events : List YEvent) : Except String (List (String × List String)) :=
  match buildSectionToFile absJoin fm with
  | .error e => .error e
  | .ok stf =>
      match firstMissing parsedKeys (fm.flatMap (fun x => x.2.2)) with
      | .error e => .error e
      | .ok _ => analyzeTail isAbs stf (events.foldl (analyzeStep norm stf) initAnalyzeState)

/-! ## File emission (`YAMLSplitter.write_split_files`, lines 288-338) -/

/-- One `!include` directive line (lines 320-323): `relp` stands for
`os.path.relpath`, `dirname` for `os.path.dirname`, `slash` for the
`os.sep`-to-`/` replacement. -/
def includeLine (relp : String → String → String) (slash dirname : String → String)
    (outFile dep : String) : String :=
  "!include " ++ slash (relp dep (dirname outFile)) ++ "\n"

/-- The include header written for one output file (lines 319-324): present
only when the file has an entry in the dependency dictionary; one line per
dependency in `sorted` order, then a blank line and the `---` separator. -/
def fileHeader (relp : String → String → String) (slash dirname : String → String)
    (dependencies : List (String × List String)) (outFile : String) : String :=
  match dictGet dependencies outFile with
  | none => ""
  | some deps =>
      String.join ((sortLe strLe deps).map (includeLine relp slash dirname outFile))
        ++ "\n---\n"

/-- `write_split_files`: every file that accumulated events is written as its
include header followed by the re-serialized buffered events (`serialize`
stands for composing the events and dumping them with the configured
emitter). -/
def writeSplitFiles (relp : String → String → String) (slash dirname : String → String)
    (serialize : List YEvent → String) (dependencies : List (String × List String))
    (eventsByFile : List (String × List YEvent)) : List (String × String) :=
  eventsByFile.map (fun fe =>
    (fe.1, fileHeader relp slash dirname dependencies fe.1 ++ serialize fe.2))

/-- The sequencing of `main` (lines 359-361): the analysis plan — which runs
`_validate_dependencies` — must succeed before `write_split_files` is entered;
a validation error propagates and no output is produced. -/
def splitPipeline (isAbs : String → Bool) (t : YAMLDependencyTracker)
    (stf : List (String × String)) (relp : String → String → String)
    (slash dirname : String → String) (serialize : List YEvent → String)
    (eventsByFile : List (String × List YEvent)) : Except String (List (String × String)) :=
  match validateDependencies isAbs t stf with
  | .error e => .error e
  | .ok _ => .ok (writeSplitFiles relp slash dirname serialize t.file_dependencies eventsByFile)

/-! ## Recombiner (`src/yaml-tools/core/advanced_yaml_combiner.py`) -/

def strEndsWith (s suf : String) : Bool := List.isSuffixOf suf.data s.data

def strStartsWith (s pre : String) : Bool := List.isPrefixOf pre.data s.data

/-- The hard-coded priority file order of `AnchorPreservingCombiner.combine`
(lines 54-65). -/
def priorityOrder : List String :=
  ["bonus_attack_progression.yaml", "abp_node_group.yaml", "abp_bonus_type.yaml",
   "abp_node.yaml", "ability.yaml", "ancestry.yaml", "bonus_type.yaml",
   "class.yaml", "corruption.yaml", "corruption_manifestation.yaml"]

def idxIn : List String → String → Option Nat
  | [], _ => none
  | b :: bs, a => if b = a then some 0 else (idxIn bs a).map (fun n => n + 1)

/-- The comparison induced by the Python `sort_key` (lines 68-77): priority
files compare by their index in `priorityOrder` and precede all others, which
compare by basename lexicographically. -/
def fileKeyLe (a b : String) : Bool :=
  match idxIn priorityOrder a, idxIn priorityOrder b with
  | some i, some j => decide (i ≤ j)
  | some _, none => true
  | none, some _ => false
  | none, none => strLe a b

/-- `glob("*.yaml")` (which skips dotfiles) combined with the explicit
exclusion filter of lines 46-51. -/
def eligibleFile (name : String) : Bool :=
  strEndsWith name (".yaml") && !(name == "00-anchors.yaml")
    && !(name == "README.md") && !(strStartsWith name ("."))

/-- One concatenated block (lines 107-112): files whose content is
whitespace-only (empty after `.strip()`) are skipped; others are emitted under
a `# From <file>` marker followed by the body and a blank line. -/
def yamlBlock (fc : String × String) : Option String :=
  if fc.2.data.all (fun c => c.isWhitespace) then none
  else some ("# From " ++ fc.1 ++ "\n" ++ fc.2 ++ "\n\n")

def combinedHeader : String := "# Combined YAML file with preserved anchors/aliases\n\n"

/-- `AnchorPreservingCombiner.combine` on a directory listing of
`(basename, content)` pairs: requires the anchors file `00-anchors.yaml` to
exist (`none` models the early `return False`), sorts the eligible files by
the priority-then-lexicographic key, and concatenates the non-empty bodies
under their `# From` markers after the fixed header comment. -/
def combineFiles (dir : List (String × String)) : Option String :=
  if "00-anchors.yaml" ∈ dir.map Prod.fst then
    some (combinedHeader ++ String.join
      ((sortLe (fun x y => fileKeyLe x.1 y.1)
          (dir.filter (fun fc => eligibleFile fc.1))).filterMap yamlBlock))
  else none

/-! ## C7: context-path balance in the analysis pass -/

def mapDelta : YEvent → Int
  | .mapStart _ => 1
  | .mapEnd => -1
  | _ => 0

def mapSum (evs : List YEvent) : Int := (evs.map mapDelta).sum

/-- Well-formedness of an event stream as far as the context tracker is
concerned: mapping start/end events are balanced overall and no prefix closes
more mappings than it has opened. A properly nested event stream produced by
a real parser satisfies this. -/
def BalancedMapping (evs : List YEvent) : Prop :=
  mapSum evs = 0 ∧ ∀ n, n < evs.length → 0 ≤ mapSum (evs.take n)

theorem mapSum_cons (e : YEvent) (evs : List YEvent) :
    mapSum (e :: evs) = mapDelta e + mapSum evs := by
  simp [mapSum]

theorem contextStep_foldl_length (evs : List YEvent) :
    ∀ (path : List String) (sec : Option String) (d : Int),
    (path.length : Int) ≤ d →
    (∀ n, 0 ≤ d + mapSum (evs.take n)) →
    (((evs.foldl contextStep (path, sec)).1.length : Int)) ≤ d + mapSum evs := by
  induction evs with
  | nil =>
      intro path sec d hlen _
      simpa [mapSum] using hlen
  | cons e rest ih =>
      intro path sec d hlen hpre
      have hstep : ((contextStep (path, sec) e).1.length : Int) ≤ d + mapDelta e := by
        cases e with
        | mapStart anc =>
            by_cases ht : truthyS sec = true
            · have hred : contextStep (path, sec) (YEvent.mapStart anc)
                  = (path ++ [sec.getD ""], sec) := by
                simp [contextStep, ht]
              rw [hred]
              simp only [mapDelta, List.length_append, List.length_singleton]
              push_cast
              omega
            · have hred : contextStep (path, sec) (YEvent.mapStart anc) = (path, sec) := by
                simp [contextStep, ht]
              rw [hred]
              simp only [mapDelta]
              omega
        | mapEnd =>
            cases hlast : path.getLast? with
            | some last =>
                have hne : path ≠ [] := by
                  intro hp
                  rw [hp] at hlast
                  exact Option.noConfusion hlast
                have hpos : 1 ≤ path.length := List.length_pos.mpr hne
                have hred : contextStep (path, sec) YEvent.mapEnd
                    = (path.dropLast, some last) := by
                  simp [contextStep, hlast]
                rw [hred]
                simp only [mapDelta, List.length_dropLast]
                omega
            | none =>
                have hpath : path = [] := List.getLast?_eq_none_iff.mp hlast
                subst hpath
                have hred : contextStep (([] : List String), sec) YEvent.mapEnd
                    = ([], sec) := rfl
                rw [hred]
                have h1 := hpre 1
                simp only [List.take_succ_cons, List.take_zero, mapSum, List.map_cons,
                  List.map_nil, List.sum_cons, List.sum_nil, mapDelta] at h1
                simp only [mapDelta, List.length_nil]
                omega
        | scalar v anc =>
            by_cases hp : path.isEmpty = true
            · have hred : contextStep (path, sec) (YEvent.scalar v anc)
                  = (path, some v) := by
                simp [contextStep, hp]
              rw [hred]
              simp only [mapDelta]
              omega
            · have hred : contextStep (path, sec) (YEvent.scalar v anc) = (path, sec) := by
                simp [contextStep, hp]
              rw [hred]
              simp only [mapDelta]
              omega
        | streamStart => simpa [contextStep, mapDelta] using hlen
        | streamEnd => simpa [contextStep, mapDelta] using hlen
        | docStart => simpa [contextStep, mapDelta] using hlen
        | docEnd => simpa [contextStep, mapDelta] using hlen
        | seqStart anc => simpa [contextStep, mapDelta] using hlen
        | seqEnd => simpa [contextStep, mapDelta] using hlen
        | aliasEv name => simpa [contextStep, mapDelta] using hlen
      have hpre2 : ∀ n, 0 ≤ (d + mapDelta e) + mapSum (rest.take n) := by
        intro n
        have := hpre (n + 1)
        rw [List.take_succ_cons, mapSum_cons] at this
        linarith
      have hmain := ih (contextStep (path, sec) e).1 (contextStep (path, sec) e).2
        (d + mapDelta e) hstep hpre2
      rw [List.foldl_cons, mapSum_cons]
      have heta : ((contextStep (path, sec) e).1, (contextStep (path, sec) e).2)
          = contextStep (path, sec) e := rfl
      rw [heta] at hmain
      linarith

theorem analyzeStep_context (norm : String → String) (stf : List (String × String))
    (st : AnalyzeState) (e : YEvent) :
    ((analyzeStep norm stf st e).contextPath, (analyzeStep norm stf st e).currentSection)
      = contextStep (st.contextPath, st.currentSection) e := rfl

theorem foldl_analyzeStep_context (norm : String → String) (stf : List (String × String))
    (evs : List YEvent) (st : AnalyzeState) :
    ((evs.foldl (analyzeStep norm stf) st).contextPath,
      (evs.foldl (analyzeStep norm stf) st).currentSection)
      = evs.foldl contextStep (st.contextPath, st.currentSection) := by
  induction evs generalizing st with
  | nil => rfl
  | cons e rest ih =>
      rw [List.foldl_cons, List.foldl_cons, ih (analyzeStep norm stf st e),
        analyzeStep_context]

/-- **C7 (amended).** For every event stream whose mapping start/end events
are balanced (no prefix closes more mappings than were opened and the totals
agree), the context-path stack of the analysis pass is empty once the stream
is consumed, so the `assert not context_path` balance assertion at the end of
`analyze_structure` succeeds. (The converse direction of the original claim
fails: see the counterexample — an unbalanced stream can also leave the stack
empty.) -/
theorem analyze_context_balanced (norm : String → String) (stf : List (String × String))
    (events : List YEvent) (h : BalancedMapping events) :
    (events.foldl (analyzeStep norm stf) initAnalyzeState).contextPath = [] ∧
    contextAssert (events.foldl (analyzeStep norm stf) initAnalyzeState) = .ok () := by
  have hpre : ∀ n, 0 ≤ (0 : Int) + mapSum (events.take n) := by
    intro n
    by_cases hn : n < events.length
    · simpa using h.2 n hn
    · rw [List.take_of_length_le (le_of_not_lt hn)]
      simp [h.1]
  have hle := contextStep_foldl_length events [] none 0 (by simp) hpre
  rw [h.1] at hle
  have hproj := foldl_analyzeStep_context norm stf events initAnalyzeState
  have hpath : (events.foldl (analyzeStep norm stf) initAnalyzeState).contextPath
      = (events.foldl contextStep ([], none)).1 := by
    have := congrArg Prod.fst hproj
    simpa [initAnalyzeState] using this
  have hlen0 : (events.foldl contextStep ([], none)).1.length = 0 := by omega
  have hnil : (events.foldl contextStep ([], none)).1 = [] :=
    List.length_eq_zero.mp hlen0
  refine ⟨hpath.trans hnil, ?_⟩
  simp [contextAssert, hpath.trans hnil]

theorem analyze_context_balanced_witness :
    BalancedMapping [YEvent.mapStart none, YEvent.scalar ("x") none, YEvent.mapEnd] ∧
    contextAssert ([YEvent.mapStart none, YEvent.scalar ("x") none,
        YEvent.mapEnd].foldl (analyzeStep id []) initAnalyzeState) = .ok () := by
  have hb : BalancedMapping [YEvent.mapStart none, YEvent.scalar ("x") none,
      YEvent.mapEnd] := by
    constructor
    · decide
    · decide
  exact ⟨hb, (analyze_context_balanced id []
    [YEvent.mapStart none, YEvent.scalar ("x") none, YEvent.mapEnd] hb).2⟩

/-- **C7 (counterexample to the claim as stated).** Not every unbalanced
stream is a fatal structural error: a lone mapping-start event is unbalanced,
yet `analyze_structure` completes successfully because the context stack is
only pushed while a section is active. -/
theorem analyze_unbalanced_not_fatal_counterexample :
    analyzeStructure id id (fun _ => true) [("k", "f.yaml", ["a"])] ["a"]
        [YEvent.mapStart none] = .ok [] ∧
    ¬ BalancedMapping [YEvent.mapStart none] := by
  constructor
  · rfl
  · intro h
    exact absurd h.1 (by decide)

/-! ## C8: duplicate section mapping -/

theorem addSections_ok_keys (outFile : String) :
    ∀ (sections : List String) (acc : List (String × String)),
    (acc.map Prod.fst ++ sections).Nodup →
    ∃ acc2, addSections outFile sections acc = .ok acc2 ∧
      acc2.map Prod.fst = acc.map Prod.fst ++ sections := by
  intro sections
  induction sections with
  | nil =>
      intro acc _
      exact ⟨acc, rfl, by simp⟩
  | cons s rest ih =>
      intro acc hnd
      have hmemno : s ∉ acc.map Prod.fst := by
        rcases List.nodup_append.mp hnd with ⟨_, _, hdisj⟩
        intro hmem
        exact hdisj hmem (List.mem_cons_self s rest)
      have hget : dictGet acc s = none := (dictGet_eq_none_iff acc s).mpr hmemno
      have hkeys : (acc ++ [(s, outFile)]).map Prod.fst = acc.map Prod.fst ++ [s] := by
        simp
      have hnd2 : ((acc ++ [(s, outFile)]).map Prod.fst ++ rest).Nodup := by
        rw [hkeys, List.append_assoc]
        simpa using hnd
      rcases ih (acc ++ [(s, outFile)]) hnd2 with ⟨acc2, hok, hk⟩
      refine ⟨acc2, ?_, ?_⟩
      · simp only [addSections, hget, Option.isSome_none, Bool.false_eq_true,
          if_false]
        exact hok
      · rw [hk, hkeys, List.append_assoc]
        simp

theorem addSections_error_of_dup (outFile : String) :
    ∀ (sections : List String) (acc : List (String × String)),
    (acc.map Prod.fst).Nodup →
    ¬ (acc.map Prod.fst ++ sections).Nodup →
    ∃ s, addSections outFile sections acc = .error ("Duplicate section mapping: " ++ s) := by
  intro sections
  induction sections with
  | nil =>
      intro acc hacc hnd
      rw [List.append_nil] at hnd
      exact absurd hacc hnd
  | cons s rest ih =>
      intro acc hacc hnd
      by_cases hmem : s ∈ acc.map Prod.fst
      · refine ⟨s, ?_⟩
        have hget : (dictGet acc s).isSome = true := by
          cases hg : dictGet acc s with
          | none => exact absurd ((dictGet_eq_none_iff acc s).mp hg) (by simpa using hmem)
          | some v => rfl
        simp [addSections, hget]
      · have hget : dictGet acc s = none := (dictGet_eq_none_iff acc s).mpr hmem
        have hkeys : (acc ++ [(s, outFile)]).map Prod.fst = acc.map Prod.fst ++ [s] := by
          simp
        have hacc2 : ((acc ++ [(s, outFile)]).map Prod.fst).Nodup := by
          rw [hkeys]
          refine List.nodup_append.mpr ⟨hacc, List.nodup_singleton s, ?_⟩
          intro a ha hmem2
          rcases List.mem_singleton.mp hmem2 with rfl
          exact hmem ha
        have hnd2 : ¬ ((acc ++ [(s, outFile)]).map Prod.fst ++ rest).Nodup := by
          rw [hkeys, List.append_assoc]
          simpa using hnd
        rcases ih (acc ++ [(s, outFile)]) hacc2 hnd2 with ⟨s2, herr⟩
        refine ⟨s2, ?_⟩
        simp only [addSections, hget, Option.isSome_none, Bool.false_eq_true, if_false]
        exact herr

theorem buildS2F_error_of_dup (absJoin : String → String) :
    ∀ (fm : List (String × String × List String)) (acc : List (String × String)),
    (∀ e ∈ fm, e.2.1 ≠ "") →
    (acc.map Prod.fst).Nodup →
    ¬ (acc.map Prod.fst ++ fm.flatMap (fun x => x.2.2)).Nodup →
    ∃ s, buildS2F absJoin fm acc = .error ("Duplicate section mapping: " ++ s) := by
  intro fm
  induction fm with
  | nil =>
      intro acc _ hnd hdup
      rw [List.flatMap_nil, List.append_nil] at hdup
      exact absurd hnd hdup
  | cons entry rest ih =>
      intro acc hpaths hnd hdup
      rcases entry with ⟨key, p, content⟩
      have hp : p ≠ "" := by
        have := hpaths (key, p, content) (List.mem_cons_self _ _)
        simpa using this
      by_cases hc : (acc.map Prod.fst ++ content).Nodup
      · rcases addSections_ok_keys (absJoin p) content acc hc with ⟨acc2, hok, hkeys⟩
        have hnd2 : (acc2.map Prod.fst).Nodup := hkeys ▸ hc
        have hdup2 : ¬ (acc2.map Prod.fst ++ rest.flatMap (fun x => x.2.2)).Nodup := by
          rw [hkeys, List.append_assoc]
          intro h
          apply hdup
          simpa [List.flatMap_cons, List.append_assoc] using h
        rcases ih acc2 (fun e he => hpaths e (List.mem_cons_of_mem _ he)) hnd2 hdup2
          with ⟨s, herr⟩
        refine ⟨s, ?_⟩
        simp only [buildS2F, if_neg hp, hok]
        exact herr
      · rcases addSections_error_of_dup (absJoin p) content acc hnd hc with ⟨s, herr⟩
        refine ⟨s, ?_⟩
        simp only [buildS2F, if_neg hp, herr]

theorem flatMap_not_nodup_of_shared (fm : List (String × String × List String))
    (i j : Nat) (s : String) (hij : i < j) (hj : j < fm.length)
    (hsi : s ∈ (fm.get ⟨i, lt_trans hij hj⟩).2.2) (hsj : s ∈ (fm.get ⟨j, hj⟩).2.2) :
    ¬ (fm.flatMap (fun x => x.2.2)).Nodup := by
  intro hnd
  have hsplit : fm = fm.take j ++ fm.drop j := (List.take_append_drop j fm).symm
  rw [hsplit, List.flatMap_append] at hnd
  rcases List.nodup_append.mp hnd with ⟨_, _, hdisj⟩
  have hilen : i < (fm.take j).length := by
    rw [List.length_take]
    exact lt_min hij (lt_trans hij hj)
  have hmemi : fm.get ⟨i, lt_trans hij hj⟩ ∈ fm.take j := by
    have h2 : (fm.take j)[i] = fm.get ⟨i, lt_trans hij hj⟩ :=
      @List.getElem_take _ fm j i hilen
    rw [← h2]
    exact List.getElem_mem hilen
  have hjlen : 0 < (fm.drop j).length := by
    rw [List.length_drop]
    omega
  have hmemj : fm.get ⟨j, hj⟩ ∈ fm.drop j := by
    have h2 : (fm.drop j)[0] = fm.get ⟨j + 0, by omega⟩ :=
      @List.getElem_drop _ fm j 0 hjlen
    have h3 : fm.get ⟨j + 0, by omega⟩ = fm.get ⟨j, hj⟩ := by simp
    rw [← h3, ← h2]
    exact List.getElem_mem hjlen
  exact hdisj (List.mem_flatMap.mpr ⟨_, hmemi, hsi⟩)
    (List.mem_flatMap.mpr ⟨_, hmemj, hsj⟩)

/-- **C8.** A section-mapping configuration that assigns the same section name
to two different output entries fails during mapping construction with the
duplicate-mapping error, and hence `analyze_structure` fails with that error
for every possible document and event stream — before any content event is
processed. -/
theorem analyzeStructure_duplicate_mapping (absJoin norm : String → String)
    (isAbs : String → Bool) (fm : List (String × String × List String))
    (i j : Nat) (s : String) (hij : i < j) (hj : j < fm.length)
    (hsi : s ∈ (fm.get ⟨i, lt_trans hij hj⟩).2.2) (hsj : s ∈ (fm.get ⟨j, hj⟩).2.2)
    (hpaths : ∀ e ∈ fm, e.2.1 ≠ "") :
    ∃ s2, buildSectionToFile absJoin fm = .error ("Duplicate section mapping: " ++ s2) ∧
      ∀ (parsedKeys : List String) (events : List YEvent),
        analyzeStructure absJoin norm isAbs fm parsedKeys events
          = .error ("Duplicate section mapping: " ++ s2) := by
  have hdup := flatMap_not_nodup_of_shared fm i j s hij hj hsi hsj
  rcases buildS2F_error_of_dup absJoin fm [] hpaths (by simp) (by simpa using hdup)
    with ⟨s2, herr⟩
  refine ⟨s2, herr, ?_⟩
  intro parsedKeys events
  unfold analyzeStructure
  rw [show buildSectionToFile absJoin fm
      = .error ("Duplicate section mapping: " ++ s2) from herr]

theorem analyzeStructure_duplicate_mapping_witness :
    ∃ s2, buildSectionToFile id
        [("k1", "a.yaml", ["x"]), ("k2", "b.yaml", ["x"])]
        = .error ("Duplicate section mapping: " ++ s2) ∧
      ∀ (parsedKeys : List String) (events : List YEvent),
        analyzeStructure id id (fun _ => true)
            [("k1", "a.yaml", ["x"]), ("k2", "b.yaml", ["x"])] parsedKeys events
          = .error ("Duplicate section mapping: " ++ s2) :=
  analyzeStructure_duplicate_mapping id id (fun _ => true)
    [("k1", "a.yaml", ["x"]), ("k2", "b.yaml", ["x"])] 0 1 ("x")
    (by decide) (by decide) (by decide) (by decide) (by decide)

/-! ## C1: unresolved aliases -/

def eventAnchorNames : YEvent → List String
  | .scalar _ (some a) => [a]
  | .seqStart (some a) => [a]
  | .mapStart (some a) => [a]
  | _ => []

/-- All anchor names carried by events of the stream (the only names
`register_anchor` can ever record). -/
def anchorNames (evs : List YEvent) : List String := evs.flatMap eventAnchorNames

theorem dictSet_keys_subset {α : Type} :
    ∀ (l : List (String × α)) (k k2 : String) (v : α),
    k2 ∈ (dictSet l k v).map Prod.fst → k2 = k ∨ k2 ∈ l.map Prod.fst
  | [], k, k2, v, h => by simpa [dictSet] using h
  | (k3, v3) :: tl, k, k2, v, h => by
      by_cases hk : k3 = k
      · rw [show dictSet ((k3, v3) :: tl) k v = (k3, v) :: tl by
            simp [dictSet, hk]] at h
        rw [List.map_cons] at h
        rcases List.mem_cons.mp h with h2 | h2
        · exact Or.inl (by rw [h2, hk])
        · exact Or.inr (by simp [h2])
      · rw [show dictSet ((k3, v3) :: tl) k v = (k3, v3) :: dictSet tl k v by
            simp [dictSet, hk]] at h
        rw [List.map_cons] at h
        rcases List.mem_cons.mp h with h2 | h2
        · exact Or.inr (by simp [h2])
        · rcases dictSet_keys_subset tl k k2 v h2 with h3 | h3
          · exact Or.inl h3
          · exact Or.inr (by simp [h3])

theorem maybeRegisterAnchor_keys (norm : String → String) (stf : List (String × String))
    (sec : Option String) (t : YAMLDependencyTracker) (anc : Option String) (k : String)
    (h : k ∈ (maybeRegisterAnchor norm stf sec t anc).anchor_locations.map Prod.fst) :
    k ∈ t.anchor_locations.map Prod.fst ∨ ∃ a, anc = some a ∧ k = a := by
  cases anc with
  | none => exact Or.inl (by simpa [maybeRegisterAnchor] using h)
  | some a =>
      by_cases ha : a = ""
      · exact Or.inl (by simpa [maybeRegisterAnchor, ha] using h)
      · cases sec with
        | none => exact Or.inl (by simpa [maybeRegisterAnchor, ha] using h)
        | some s =>
            by_cases hs : s = ""
            · exact Or.inl (by simpa [maybeRegisterAnchor, ha, hs] using h)
            · cases hg : dictGet stf s with
              | none =>
                  exact Or.inl (by simpa [maybeRegisterAnchor, ha, hs, hg] using h)
              | some f =>
                  have h2 : k ∈ (dictSet t.anchor_locations a (norm f)).map Prod.fst := by
                    simpa [maybeRegisterAnchor, ha, hs, hg, registerAnchor] using h
                  rcases dictSet_keys_subset _ _ _ _ h2 with h3 | h3
                  · exact Or.inr ⟨a, rfl, h3⟩
                  · exact Or.inl h3

theorem processAnalysisEvent_anchor_keys (norm : String → String)
    (stf : List (String × String)) (sec : Option String) (t : YAMLDependencyTracker)
    (e : YEvent) (k : String)
    (h : k ∈ (processAnalysisEvent norm stf sec t e).anchor_locations.map Prod.fst) :
    k ∈ t.anchor_locations.map Prod.fst ∨ k ∈ eventAnchorNames e := by
  cases e with
  | aliasEv name =>
      refine Or.inl ?_
      cases sec with
      | none => simpa [processAnalysisEvent] using h
      | some s =>
          by_cases hs : s = ""
          · simpa [processAnalysisEvent, hs] using h
          · cases hg : dictGet stf s with
            | none => simpa [processAnalysisEvent, hs, hg] using h
            | some f =>
                have h2 : k ∈ (registerAliasUsage norm t name f).anchor_locations.map
                    Prod.fst := by
                  simpa [processAnalysisEvent, hs, hg] using h
                rwa [registerAliasUsage_anchor_locations] at h2
  | scalar v anc =>
      rcases maybeRegisterAnchor_keys norm stf sec t anc k
        (by simpa [processAnalysisEvent] using h) with h2 | ⟨a, rfl, rfl⟩
      · exact Or.inl h2
      · exact Or.inr (by simp [eventAnchorNames])
  | seqStart anc =>
      rcases maybeRegisterAnchor_keys norm stf sec t anc k
        (by simpa [processAnalysisEvent] using h) with h2 | ⟨a, rfl, rfl⟩
      · exact Or.inl h2
      · exact Or.inr (by simp [eventAnchorNames])
  | mapStart anc =>
      rcases maybeRegisterAnchor_keys norm stf sec t anc k
        (by simpa [processAnalysisEvent] using h) with h2 | ⟨a, rfl, rfl⟩
      · exact Or.inl h2
      · exact Or.inr (by simp [eventAnchorNames])
  | streamStart => exact Or.inl (by simpa [processAnalysisEvent] using h)
  | streamEnd => exact Or.inl (by simpa [processAnalysisEvent] using h)
  | docStart => exact Or.inl (by simpa [processAnalysisEvent] using h)
  | docEnd => exact Or.inl (by simpa [processAnalysisEvent] using h)
  | seqEnd => exact Or.inl (by simpa [processAnalysisEvent] using h)
  | mapEnd => exact Or.inl (by simpa [processAnalysisEvent] using h)

theorem foldl_anchor_keys (norm : String → String) (stf : List (String × String)) :
    ∀ (evs : List YEvent) (st : AnalyzeState) (k : String),
    k ∈ ((evs.foldl (analyzeStep norm stf) st).tracker.anchor_locations.map Prod.fst) →
    k ∈ st.tracker.anchor_locations.map Prod.fst ∨ k ∈ anchorNames evs := by
  intro evs
  induction evs with
  | nil =>
      intro st k h
      exact Or.inl h
  | cons e rest ih =>
      intro st k h
      rw [List.foldl_cons] at h
      rcases ih (analyzeStep norm stf st e) k h with h2 | h2
      · rcases processAnalysisEvent_anchor_keys norm stf _ st.tracker e k h2 with h3 | h3
        · exact Or.inl h3
        · refine Or.inr ?_
          simp only [anchorNames, List.flatMap_cons, List.mem_append]
          exact Or.inl h3
      · refine Or.inr ?_
        simp only [anchorNames, List.flatMap_cons, List.mem_append]
        exact Or.inr h2

theorem analyzeStep_unresolved_alias_id (norm : String → String)
    (stf : List (String × String)) (st : AnalyzeState) (g : String)
    (h : dictGet st.tracker.anchor_locations g = none) :
    analyzeStep norm stf st (YEvent.aliasEv g) = st := by
  have htr : processAnalysisEvent norm stf
      (contextStep (st.contextPath, st.currentSection) (YEvent.aliasEv g)).2
      st.tracker (YEvent.aliasEv g) = st.tracker := by
    have hctx : (contextStep (st.contextPath, st.currentSection) (YEvent.aliasEv g)).2
        = st.currentSection := rfl
    rw [hctx]
    cases hsec : st.currentSection with
    | none => rfl
    | some s =>
        by_cases hs : s = ""
        · simp [processAnalysisEvent, hs]
        · cases hg : dictGet stf s with
          | none => simp [processAnalysisEvent, hs, hg]
          | some f =>
              simp only [processAnalysisEvent, if_neg hs, hg]
              exact registerAliasUsage_unresolved_frame norm st.tracker g f h
  show AnalyzeState.mk st.contextPath st.currentSection
      (processAnalysisEvent norm stf
        (contextStep (st.contextPath, st.currentSection) (YEvent.aliasEv g)).2
        st.tracker (YEvent.aliasEv g)) = st
  rw [htr]

/-- **C1 (amended).** An alias usage whose name has not been registered as an
anchor anywhere earlier in the stream is silently ignored by the analysis
pass: removing (or inserting) that alias event leaves the entire result of
`analyze_structure` unchanged. In particular no unresolved-alias deferral or
fatal error exists — the pass completes exactly as it would without the
alias. -/
theorem analyzeStructure_unresolved_alias_silent (absJoin norm : String → String)
    (isAbs : String → Bool) (fm : List (String × String × List String))
    (parsedKeys : List String) (evs1 evs2 : List YEvent) (g : String)
    (hg : g ∉ anchorNames evs1) :
    analyzeStructure absJoin norm isAbs fm parsedKeys (evs1 ++ YEvent.aliasEv g :: evs2)
      = analyzeStructure absJoin norm isAbs fm parsedKeys (evs1 ++ evs2) := by
  have hfold : ∀ stf : List (String × String),
      (evs1 ++ YEvent.aliasEv g :: evs2).foldl (analyzeStep norm stf) initAnalyzeState
        = (evs1 ++ evs2).foldl (analyzeStep norm stf) initAnalyzeState := by
    intro stf
    rw [List.foldl_append, List.foldl_append, List.foldl_cons]
    have hmid : dictGet (evs1.foldl (analyzeStep norm stf)
        initAnalyzeState).tracker.anchor_locations g = none := by
      rw [dictGet_eq_none_iff]
      intro hmem
      rcases foldl_anchor_keys norm stf evs1 initAnalyzeState g hmem with h2 | h2
      · simp [initAnalyzeState, emptyTracker] at h2
      · exact hg h2
    rw [analyzeStep_unresolved_alias_id norm stf _ g hmid]
  unfold analyzeStructure
  cases hb : buildSectionToFile absJoin fm with
  | error e => rfl
  | ok stf =>
      cases hm : firstMissing parsedKeys (fm.flatMap (fun x => x.2.2)) with
      | error e => rfl
      | ok u =>
          show analyzeTail isAbs stf ((evs1 ++ YEvent.aliasEv g :: evs2).foldl
              (analyzeStep norm stf) initAnalyzeState)
            = analyzeTail isAbs stf ((evs1 ++ evs2).foldl (analyzeStep norm stf)
              initAnalyzeState)
          rw [hfold stf]

theorem analyzeStructure_unresolved_alias_silent_witness :
    ("ghost" ∉ anchorNames [YEvent.streamStart, YEvent.docStart,
        YEvent.scalar ("a") none]) ∧
    analyzeStructure id id (fun _ => true) [("k", "f.yaml", ["a"])] ["a"]
        ([YEvent.streamStart, YEvent.docStart, YEvent.scalar ("a") none]
          ++ YEvent.aliasEv ("ghost") :: [YEvent.docEnd, YEvent.streamEnd])
      = analyzeStructure id id (fun _ => true) [("k", "f.yaml", ["a"])] ["a"]
          ([YEvent.streamStart, YEvent.docStart, YEvent.scalar ("a") none]
            ++ [YEvent.docEnd, YEvent.streamEnd]) :=
  ⟨by decide,
   analyzeStructure_unresolved_alias_silent id id (fun _ => true)
     [("k", "f.yaml", ["a"])] ["a"]
     [YEvent.streamStart, YEvent.docStart, YEvent.scalar ("a") none]
     [YEvent.docEnd, YEvent.streamEnd] ("ghost") (by decide)⟩

/-- **C1 (counterexample to the claim as stated).** An alias (`*ghost`) with
no matching anchor anywhere in the document is used from a mapped section, yet
`analyze_structure` completes successfully: there is no deferral list and no
fatal unresolved-alias error — the usage is silently dropped. -/
theorem analyzeStructure_unresolved_alias_counterexample :
    analyzeStructure id id (fun _ => true) [("k", "f.yaml", ["a"])] ["a"]
        [YEvent.streamStart, YEvent.docStart, YEvent.scalar ("a") none,
         YEvent.mapStart none, YEvent.scalar ("kk") none, YEvent.aliasEv ("ghost"),
         YEvent.mapEnd, YEvent.docEnd, YEvent.streamEnd] = .ok [] ∧
    YEvent.aliasEv ("ghost")
        ∈ [YEvent.streamStart, YEvent.docStart, YEvent.scalar ("a") none,
           YEvent.mapStart none, YEvent.scalar ("kk") none, YEvent.aliasEv ("ghost"),
           YEvent.mapEnd, YEvent.docEnd, YEvent.streamEnd] ∧
    ("ghost" : String)
        ∉ anchorNames [YEvent.streamStart, YEvent.docStart, YEvent.scalar ("a") none,
           YEvent.mapStart none, YEvent.scalar ("kk") none, YEvent.aliasEv ("ghost"),
           YEvent.mapEnd, YEvent.docEnd, YEvent.streamEnd] := by
  refine ⟨rfl, by decide, by decide⟩

/-! ## C5: include headers -/

/-- **C5.** For every emitted output file that has a (non-empty) entry in the
dependency dictionary, the file content starts with exactly one `!include`
line per dependency — the dependencies in `sorted` (lexicographic) order, each
rendered relative to the output file's own directory with separators replaced
by forward slashes — followed by a blank line, the `---` separator line and
then the serialized body; and the header is byte-identical however the
dependency set happens to be ordered (determinism across runs). -/
theorem writeSplitFiles_include_header (relp : String → String → String)
    (slash dirname : String → String) (serialize : List YEvent → String)
    (dependencies : List (String × List String))
    (eventsByFile : List (String × List YEvent))
    (f : String) (deps : List String) (evs : List YEvent)
    (hdeps : dictGet dependencies f = some deps) (hne : deps ≠ [])
    (hmem : (f, evs) ∈ eventsByFile) :
    ∃ sd, sd.Perm deps ∧ sd.Pairwise (fun a b => strLe a b = true) ∧ sd ≠ [] ∧
      fileHeader relp slash dirname dependencies f
        = String.join (sd.map (includeLine relp slash dirname f)) ++ "\n---\n" ∧
      (f, String.join (sd.map (includeLine relp slash dirname f)) ++ "\n---\n"
          ++ serialize evs)
        ∈ writeSplitFiles relp slash dirname serialize dependencies eventsByFile ∧
      ∀ deps2, deps2.Perm deps →
        fileHeader relp slash dirname (dictSet dependencies f deps2) f
          = fileHeader relp slash dirname dependencies f := by
  have htot : ∀ x y : String, strLe x y = true ∨ strLe y x = true := strLe_total
  have htrans : ∀ x y z : String,
      strLe x y = true → strLe y z = true → strLe x z = true :=
    fun x y z h1 h2 => strLe_trans h1 h2
  have hanti : ∀ x y : String, strLe x y = true → strLe y x = true → x = y :=
    fun x y h1 h2 => strLe_antisymm h1 h2
  have hheader : fileHeader relp slash dirname dependencies f
      = String.join ((sortLe strLe deps).map (includeLine relp slash dirname f))
        ++ "\n---\n" := by
    unfold fileHeader
    rw [hdeps]
  refine ⟨sortLe strLe deps, sortLe_perm strLe deps,
    sortLe_pairwise htot htrans deps, ?_, hheader, ?_, ?_⟩
  · intro hnil
    have hp := sortLe_perm strLe deps
    rw [hnil] at hp
    exact hne hp.symm.eq_nil
  · have hmem2 : (f, fileHeader relp slash dirname dependencies f ++ serialize evs)
        ∈ writeSplitFiles relp slash dirname serialize dependencies eventsByFile := by
      unfold writeSplitFiles
      exact List.mem_map.mpr ⟨(f, evs), hmem, rfl⟩
    rwa [hheader] at hmem2
  · intro deps2 hperm
    have h1 : fileHeader relp slash dirname (dictSet dependencies f deps2) f
        = String.join ((sortLe strLe deps2).map (includeLine relp slash dirname f))
          ++ "\n---\n" := by
      unfold fileHeader
      rw [dictGet_dictSet_self]
    rw [h1, hheader, sortLe_eq_of_perm htot htrans hanti hperm]

theorem writeSplitFiles_include_header_witness :
    ∃ sd, sd.Perm ["b.yaml", "a.yaml"] ∧
      sd.Pairwise (fun a b => strLe a b = true) ∧ sd ≠ [] ∧
      fileHeader (fun d _ => d) id (fun _ => "out") [("w", ["b.yaml", "a.yaml"])] ("w")
        = String.join (sd.map (includeLine (fun d _ => d) id (fun _ => "out") ("w")))
          ++ "\n---\n" ∧
      ("w", String.join (sd.map (includeLine (fun d _ => d) id (fun _ => "out") ("w")))
          ++ "\n---\n" ++ (fun _ : List YEvent => "body\n") [])
        ∈ writeSplitFiles (fun d _ => d) id (fun _ => "out")
            (fun _ => "body\n") [("w", ["b.yaml", "a.yaml"])] [("w", [])] ∧
      ∀ deps2, deps2.Perm ["b.yaml", "a.yaml"] →
        fileHeader (fun d _ => d) id (fun _ => "out")
            (dictSet [("w", ["b.yaml", "a.yaml"])] ("w") deps2) ("w")
          = fileHeader (fun d _ => d) id (fun _ => "out")
              [("w", ["b.yaml", "a.yaml"])] ("w") :=
  writeSplitFiles_include_header (fun d _ => d) id (fun _ => "out")
    (fun _ => "body\n") [("w", ["b.yaml", "a.yaml"])] [("w", [])]
    ("w") ["b.yaml", "a.yaml"] [] (by decide) (by decide) (by decide)

/-! ## C9: recombiner order -/

theorem fileKeyLe_total (a b : String) : fileKeyLe a b = true ∨ fileKeyLe b a = true := by
  unfold fileKeyLe
  cases hA : idxIn priorityOrder a with
  | none =>
      cases hB : idxIn priorityOrder b with
      | none => exact strLe_total a b
      | some j => exact Or.inr rfl
  | some i =>
      cases hB : idxIn priorityOrder b with
      | none => exact Or.inl rfl
      | some j =>
          rcases Nat.le_total i j with h | h
          · exact Or.inl (decide_eq_true h)
          · exact Or.inr (decide_eq_true h)

theorem fileKeyLe_trans (a b c : String) (h1 : fileKeyLe a b = true)
    (h2 : fileKeyLe b c = true) : fileKeyLe a c = true := by
  unfold fileKeyLe at h1 h2 ⊢
  cases hA : idxIn priorityOrder a with
  | none =>
      cases hB : idxIn priorityOrder b with
      | none =>
          cases hC : idxIn priorityOrder c with
          | none =>
              rw [hA, hB] at h1
              rw [hB, hC] at h2
              exact strLe_trans h1 h2
          | some k =>
              rw [hB, hC] at h2
              exact absurd h2 (by simp)
      | some j =>
          rw [hA, hB] at h1
          exact absurd h1 (by simp)
  | some i =>
      cases hC : idxIn priorityOrder c with
      | none => rfl
      | some k =>
          cases hB : idxIn priorityOrder b with
          | none =>
              rw [hB, hC] at h2
              exact absurd h2 (by simp)
          | some j =>
              rw [hA, hB] at h1
              rw [hB, hC] at h2
              exact decide_eq_true
                (Nat.le_trans (of_decide_eq_true h1) (of_decide_eq_true h2))

theorem fileKeyLe_priority_lex (x y : String) (h : fileKeyLe x y = true) :
    (match idxIn priorityOrder x, idxIn priorityOrder y with
      | some i, some j => i ≤ j
      | some _, none => True
      | none, some _ => False
      | none, none => strLe x y = true) := by
  unfold fileKeyLe at h
  cases hA : idxIn priorityOrder x with
  | none =>
      cases hB : idxIn priorityOrder y with
      | none =>
          rw [hA, hB] at h
          simpa using h
      | some j =>
          rw [hA, hB] at h
          simp at h
  | some i =>
      cases hB : idxIn priorityOrder y with
      | none => simp
      | some j =>
          rw [hA, hB] at h
          simpa using of_decide_eq_true h

/-- **C9.** Given the anchors file exists in the input directory, the
recombiner's output is the fixed header comment followed by the bodies of
exactly the eligible non-empty YAML files (the anchors file excluded), each
under its `# From <file>` marker, concatenated in an order that puts the
priority-list files first (by their position in the priority list) and the
remaining files in lexicographic basename order. -/
theorem combineFiles_order (dir : List (String × String))
    (hanch : "00-anchors.yaml" ∈ dir.map Prod.fst) :
    ∃ L : List (String × String), L.Perm (dir.filter (fun fc => eligibleFile fc.1)) ∧
      L.Pairwise (fun x y =>
        match idxIn priorityOrder x.1, idxIn priorityOrder y.1 with
        | some i, some j => i ≤ j
        | some _, none => True
        | none, some _ => False
        | none, none => strLe x.1 y.1 = true) ∧
      combineFiles dir = some (combinedHeader ++ String.join (L.filterMap yamlBlock)) := by
  have htot : ∀ x y : String × String,
      fileKeyLe x.1 y.1 = true ∨ fileKeyLe y.1 x.1 = true :=
    fun x y => fileKeyLe_total x.1 y.1
  have htrans : ∀ x y z : String × String, fileKeyLe x.1 y.1 = true →
      fileKeyLe y.1 z.1 = true → fileKeyLe x.1 z.1 = true :=
    fun x y z h1 h2 => fileKeyLe_trans x.1 y.1 z.1 h1 h2
  refine ⟨sortLe (fun x y => fileKeyLe x.1 y.1)
      (dir.filter (fun fc => eligibleFile fc.1)), sortLe_perm _ _, ?_, ?_⟩
  · have hpw := @sortLe_pairwise (String × String)
      (fun x y => fileKeyLe x.1 y.1) htot htrans (dir.filter (fun fc => eligibleFile fc.1))
    exact hpw.imp (fun h => fileKeyLe_priority_lex _ _ h)
  · unfold combineFiles
    rw [if_pos hanch]

theorem combineFiles_order_witness :
    ("00-anchors.yaml"
        ∈ ([("00-anchors.yaml", "anchors:\n  a: &a 1\n"), ("zeta.yaml", "z: 1\n"),
            ("class.yaml", "c: 1\n"), ("beta.yaml", "   \n"),
            (".hidden.yaml", "h: 1\n"), ("notes.txt", "n\n")].map Prod.fst)) ∧
    ∃ L : List (String × String),
      L.Perm ([("00-anchors.yaml", "anchors:\n  a: &a 1\n"), ("zeta.yaml", "z: 1\n"),
            ("class.yaml", "c: 1\n"), ("beta.yaml", "   \n"),
            (".hidden.yaml", "h: 1\n"), ("notes.txt", "n\n")].filter
          (fun fc => eligibleFile fc.1)) ∧
      L.Pairwise (fun x y =>
        match idxIn priorityOrder x.1, idxIn priorityOrder y.1 with
        | some i, some j => i ≤ j
        | some _, none => True
        | none, some _ => False
        | none, none => strLe x.1 y.1 = true) ∧
      combineFiles [("00-anchors.yaml", "anchors:\n  a: &a 1\n"), ("zeta.yaml", "z: 1\n"),
            ("class.yaml", "c: 1\n"), ("beta.yaml", "   \n"),
            (".hidden.yaml", "h: 1\n"), ("notes.txt", "n\n")]
        = some (combinedHeader ++ String.join (L.filterMap yamlBlock)) :=
  ⟨by decide,
   combineFiles_order [("00-anchors.yaml", "anchors:\n  a: &a 1\n"), ("zeta.yaml", "z: 1\n"),
     ("class.yaml", "c: 1\n"), ("beta.yaml", "   \n"),
     (".hidden.yaml", "h: 1\n"), ("notes.txt", "n\n")] (by decide)⟩

/-! ## C2: circular dependency detection -/

/-- Dependency edge of the tracker graph: `b` is among the recorded
dependencies of `a`. -/
def EdgeIn (g : List (String × List String)) (a b : String) : Prop := b ∈ depsOf g a

instance edgeInDecidable (g : List (String × List String)) (a b : String) :
    Decidable (EdgeIn g a b) :=
  inferInstanceAs (Decidable (b ∈ depsOf g a))

/-- Executable edge-chain check used to evaluate cycles on concrete inputs. -/
def chainEdgeB (g : List (String × List String)) : List String → Bool
  | [] => true
  | [_] => true
  | a :: b :: rest => decide (EdgeIn g a b) && chainEdgeB g (b :: rest)

theorem chainEdgeB_iff (g : List (String × List String)) :
    ∀ l : List String, chainEdgeB g l = true ↔ List.Chain' (EdgeIn g) l
  | [] => by simp [chainEdgeB]
  | [a] => by simp [chainEdgeB, List.chain'_singleton]
  | a :: b :: rest => by
      rw [List.chain'_cons]
      simp only [chainEdgeB, Bool.and_eq_true, decide_eq_true_eq]
      exact and_congr Iff.rfl (chainEdgeB_iff g (b :: rest))

/-- A cycle as reported by `check_circular`: an edge-chain of length at least
two whose first and last files coincide (`A -> B -> C -> A`). -/
def IsCycleIn (g : List (String × List String)) (c : List String) : Prop :=
  2 ≤ c.length ∧ c.Chain' (EdgeIn g) ∧ c.head? = c.getLast?

inductive ReachIn (g : List (String × List String)) : String → String → Prop
  | refl (a : String) : ReachIn g a a
  | step {a b c : String} : EdgeIn g a b → ReachIn g b c → ReachIn g a c

/-- A positive-length cycle passes through `v`. -/
def CycAt (g : List (String × List String)) (v : String) : Prop :=
  ∃ w, EdgeIn g v w ∧ ReachIn g w v

/-- Nothing on any cycle is reachable from `v` (`v` has been fully cleared by
the DFS). -/
def ClearOf (g : List (String × List String)) (v : String) : Prop :=
  ∀ w, ReachIn g v w → ¬ CycAt g w

/-- DFS invariant: every visited file that is not on the current recursion
path has been cleared. -/
def InvClear (g : List (String × List String)) (path visited : List String) : Prop :=
  ∀ b ∈ visited, b ∉ path → ClearOf g b

theorem dictGet_mem_values {α : Type} :
    ∀ {l : List (String × α)} {k : String} {v : α},
    dictGet l k = some v → v ∈ l.map Prod.snd
  | [], k, v, h => by simp [dictGet] at h
  | (k2, v2) :: rest, k, v, h => by
      by_cases hk : k2 = k
      · rw [show dictGet ((k2, v2) :: rest) k = some v2 by simp [dictGet, hk]] at h
        rcases Option.some.inj h with rfl
        simp
      · rw [show dictGet ((k2, v2) :: rest) k = dictGet rest k by
            simp [dictGet, hk]] at h
        exact List.mem_cons_of_mem _ (dictGet_mem_values h)

theorem depsOf_subset_nodes (g : List (String × List String)) (f d : String)
    (h : d ∈ depsOf g f) : d ∈ graphNodes g := by
  unfold depsOf at h
  cases hg : dictGet g f with
  | none =>
      rw [hg] at h
      simp at h
  | some deps =>
      rw [hg] at h
      simp only [Option.getD_some] at h
      have hv : deps ∈ g.map Prod.snd := dictGet_mem_values hg
      unfold graphNodes
      exact List.mem_append.mpr (Or.inr (List.mem_flatten.mpr ⟨deps, hv, h⟩))

theorem edge_start_in_keys (g : List (String × List String)) (a b : String)
    (h : EdgeIn g a b) : a ∈ graphKeys g := by
  unfold EdgeIn depsOf at h
  cases hg : dictGet g a with
  | none =>
      rw [hg] at h
      simp at h
  | some deps => exact dictGet_isSome_mem hg

theorem keys_subset_nodes (g : List (String × List String)) (k : String)
    (h : k ∈ graphKeys g) : k ∈ graphNodes g :=
  List.mem_append.mpr (Or.inl h)

theorem chain_reach (g : List (String × List String)) :
    ∀ (l : List String) (a b : String), List.Chain' (EdgeIn g) (a :: l) →
    (a :: l).getLast? = some b → ReachIn g a b
  | [], a, b, _, hlast => by
      rcases Option.some.inj (by simpa using hlast) with rfl
      exact ReachIn.refl a
  | c :: cs, a, b, hchain, hlast => by
      rcases List.chain'_cons.mp hchain with ⟨hedge, hchain2⟩
      have hlast2 : (c :: cs).getLast? = some b := by
        simpa [List.getLast?_cons_cons] using hlast
      exact ReachIn.step hedge (chain_reach g cs c b hchain2 hlast2)

theorem cycle_gives_cycAt (g : List (String × List String)) (c : List String)
    (h : IsCycleIn g c) : ∃ v, v ∈ graphKeys g ∧ CycAt g v := by
  rcases h with ⟨hlen, hchain, hheads⟩
  match c, hlen with
  | v :: w :: rest, _ =>
      rcases List.chain'_cons.mp hchain with ⟨hedge, hchain2⟩
      have hhead : (v :: w :: rest).head? = some v := rfl
      have hlast : (v :: w :: rest).getLast? = some v := by
        rw [← hheads]
        rfl
      have hlast2 : (w :: rest).getLast? = some v := by
        simpa [List.getLast?_cons_cons] using hlast
      exact ⟨v, edge_start_in_keys g v w hedge,
        ⟨w, hedge, chain_reach g rest w v hchain2 hlast2⟩⟩

theorem clear_not_cycAt (g : List (String × List String)) (v : String)
    (hclear : ClearOf g v) : ¬ CycAt g v :=
  hclear v (ReachIn.refl v)

/-! Fuel accounting for the DFS. -/

def countRem (g : List (String × List String)) (visited : List String) : Nat :=
  ((graphNodes g).toFinset \ visited.toFinset).card

theorem countRem_mono (g : List (String × List String)) (v1 v2 : List String)
    (h : ∀ x ∈ v1, x ∈ v2) : countRem g v2 ≤ countRem g v1 := by
  apply Finset.card_le_card
  apply Finset.sdiff_subset_sdiff (Finset.Subset.refl _)
  intro x hx
  rw [List.mem_toFinset] at hx ⊢
  exact h x hx

theorem countRem_cons_lt (g : List (String × List String)) (file : String)
    (visited : List String) (hmem : file ∈ graphNodes g) (hnew : file ∉ visited) :
    countRem g (file :: visited) < countRem g visited := by
  unfold countRem
  rw [List.toFinset_cons, Finset.sdiff_insert]
  apply Finset.card_erase_lt_of_mem
  rw [Finset.mem_sdiff, List.mem_toFinset, List.mem_toFinset]
  exact ⟨hmem, hnew⟩

/-! Properties of the reported cycle path. -/

theorem dropToMember_suffix (a : String) :
    ∀ l : List String, ∃ pre, l = pre ++ dropToMember a l
  | [] => ⟨[], rfl⟩
  | b :: bs => by
      by_cases hb : b = a
      · exact ⟨[], by simp [dropToMember, hb]⟩
      · rcases dropToMember_suffix a bs with ⟨pre, hpre⟩
        exact ⟨b :: pre, by simp [dropToMember, hb, ← hpre]⟩

theorem dropToMember_head (a : String) :
    ∀ l : List String, a ∈ l → (dropToMember a l).head? = some a
  | [], h => absurd h (List.not_mem_nil a)
  | b :: bs, h => by
      by_cases hb : b = a
      · simp [dropToMember, hb]
      · have h2 : a ∈ bs := by
          rcases List.mem_cons.mp h with h3 | h3
          · exact absurd h3.symm hb
          · exact h3
        rw [show dropToMember a (b :: bs) = dropToMember a bs by simp [dropToMember, hb]]
        exact dropToMember_head a bs h2

theorem cycleOf_mem_path (g : List (String × List String)) (file : String)
    (path : List String) (hmem : file ∈ path)
    (hchain : List.Chain' (EdgeIn g) (path ++ [file])) :
    IsCycleIn g (dropToMember file path ++ [file]) := by
  have hhead := dropToMember_head file path hmem
  have hne : dropToMember file path ≠ [] := by
    intro h
    rw [h] at hhead
    exact Option.noConfusion hhead
  rcases dropToMember_suffix file path with ⟨pre, hpre⟩
  have hchain2 : List.Chain' (EdgeIn g) (dropToMember file path ++ [file]) := by
    have : path ++ [file] = pre ++ (dropToMember file path ++ [file]) := by
      nth_rewrite 1 [hpre]
      rw [List.append_assoc]
    rw [this] at hchain
    exact (List.chain'_append.mp hchain).2.1
  refine ⟨?_, hchain2, ?_⟩
  · have : 1 ≤ (dropToMember file path).length := by
      have := List.length_pos.mpr hne
      omega
    rw [List.length_append, List.length_singleton]
    omega
  · rw [List.head?_append, hhead, List.getLast?_concat]
    rfl

theorem checkCircular_ok_not_mem_path (g : List (String × List String))
    (fuel : Nat) (file : String) (path visited v : List String)
    (h : checkCircular g fuel file path visited = .ok v) : file ∉ path := by
  intro hmem
  cases fuel with
  | zero => simp [checkCircular] at h
  | succ fuel2 =>
      rw [show checkCircular g (fuel2 + 1) file path visited
          = .error (cycleMessage (dropToMember file path ++ [file])) by
        simp [checkCircular, hmem]] at h
      exact Except.noConfusion h

theorem anchorsPathCheck_ok (isAbs : String → Bool) :
    ∀ l : List (String × String), (∀ kv ∈ l, isAbs kv.2 = true) →
    anchorsPathCheck isAbs l = .ok ()
  | [], _ => rfl
  | (a, f) :: rest, h => by
      have hf : isAbs f = true := h (a, f) (List.mem_cons_self _ _)
      rw [show anchorsPathCheck isAbs ((a, f) :: rest) = anchorsPathCheck isAbs rest by
        simp [anchorsPathCheck, hf]]
      exact anchorsPathCheck_ok isAbs rest (fun kv hkv => h kv (List.mem_cons_of_mem _ hkv))

/-- Specification of one `check_circular` call: under the DFS invariants, a
successful call grows the visited set, keeps it inside the graph's nodes,
records the file, and preserves the cleared-invariant; a failing call reports
a genuine cycle of the graph in its message. -/
def CcSpec (g : List (String × List String)) (fuel : Nat) : Prop :=
  ∀ (file : String) (path visited : List String),
    file ∈ graphNodes g →
    (∀ x ∈ visited, x ∈ graphNodes g) →
    countRem g visited < fuel →
    List.Chain' (EdgeIn g) (path ++ [file]) →
    InvClear g path visited →
    (∀ v, checkCircular g fuel file path visited = .ok v →
      (∀ x ∈ visited, x ∈ v) ∧ (∀ x ∈ v, x ∈ graphNodes g) ∧ file ∈ v ∧
        InvClear g path v) ∧
    (∀ e, checkCircular g fuel file path visited = .error e →
      ∃ c, IsCycleIn g c ∧ e = cycleMessage c)

/-- Specification of the dependency loop of `check_circular`. -/
def ClSpec (g : List (String × List String)) (fuel : Nat) : Prop :=
  ∀ (ds : List String) (path visited : List String),
    (∀ d ∈ ds, d ∈ graphNodes g) →
    (∀ x ∈ visited, x ∈ graphNodes g) →
    countRem g visited < fuel →
    List.Chain' (EdgeIn g) path →
    path ≠ [] →
    (∀ d ∈ ds, ∀ x, path.getLast? = some x → EdgeIn g x d) →
    InvClear g path visited →
    (∀ v, checkCircularList g fuel ds path visited = .ok v →
      (∀ x ∈ visited, x ∈ v) ∧ (∀ x ∈ v, x ∈ graphNodes g) ∧
        InvClear g path v ∧ (∀ d ∈ ds, d ∈ v ∧ d ∉ path ∧ ClearOf g d)) ∧
    (∀ e, checkCircularList g fuel ds path visited = .error e →
      ∃ c, IsCycleIn g c ∧ e = cycleMessage c)

theorem ccSpec_zero (g : List (String × List String)) : CcSpec g 0 := by
  intro file path visited _ _ hcount _ _
  exact absurd hcount (Nat.not_lt_zero _)

theorem clSpec_of_ccSpec (g : List (String × List String)) (fuel : Nat)
    (hcc : CcSpec g fuel) : ClSpec g fuel := by
  intro ds
  induction ds with
  | nil =>
      intro path visited _ hvis _ _ _ _ hinv
      constructor
      · intro v hok
        have hv : visited = v := by
          have hred : checkCircularList g fuel [] path visited = .ok visited := by
            simp [checkCircularList]
          rw [hred] at hok
          exact Except.ok.inj hok
        subst hv
        exact ⟨fun x hx => hx, hvis, hinv, fun d hd => absurd hd (List.not_mem_nil d)⟩
      · intro e herr
        have hred : checkCircularList g fuel [] path visited = .ok visited := by
          simp [checkCircularList]
        rw [hred] at herr
        exact Except.noConfusion herr
  | cons d rest ih =>
      intro path visited hds hvis hcount hchain hpne hlast hinv
      have hdnode : d ∈ graphNodes g := hds d (List.mem_cons_self _ _)
      have hchain2 : List.Chain' (EdgeIn g) (path ++ [d]) := by
        rw [List.chain'_append]
        refine ⟨hchain, List.chain'_singleton d, ?_⟩
        intro x hx y hy
        have hy2 : d = y := by simpa using hy
        subst hy2
        exact hlast d (List.mem_cons_self _ _) x (Option.mem_def.mp hx)
      cases hres : checkCircular g fuel d path visited with
      | error e =>
          have hstep : checkCircularList g fuel (d :: rest) path visited = .error e := by
            simp [checkCircularList, hres]
          constructor
          · intro v hok
            rw [hstep] at hok
            exact Except.noConfusion hok
          · intro e2 herr
            rw [hstep] at herr
            rcases Except.error.inj herr with rfl
            exact (hcc d path visited hdnode hvis hcount hchain2 hinv).2 e hres
      | ok v1 =>
          have hccres := (hcc d path visited hdnode hvis hcount hchain2 hinv).1 v1 hres
          rcases hccres with ⟨hsub1, hnodes1, hdin1, hinv1⟩
          have hdnotpath : d ∉ path :=
            checkCircular_ok_not_mem_path g fuel d path visited v1 hres
          have hdclear : ClearOf g d := hinv1 d hdin1 hdnotpath
          have hcount1 : countRem g v1 < fuel :=
            lt_of_le_of_lt (countRem_mono g visited v1 hsub1) hcount
          have hstep : checkCircularList g fuel (d :: rest) path visited
              = checkCircularList g fuel rest path v1 := by
            simp [checkCircularList, hres]
          have hih := ih path v1 (fun d2 hd2 => hds d2 (List.mem_cons_of_mem _ hd2))
            hnodes1 hcount1 hchain hpne
            (fun d2 hd2 x hx => hlast d2 (List.mem_cons_of_mem _ hd2) x hx) hinv1
          constructor
          · intro v hok
            rw [hstep] at hok
            rcases hih.1 v hok with ⟨hs2, hn2, hi2, hall2⟩
            refine ⟨fun x hx => hs2 x (hsub1 x hx), hn2, hi2, ?_⟩
            intro d2 hd2
            rcases List.mem_cons.mp hd2 with rfl | hd2
            · exact ⟨hs2 d2 hdin1, hdnotpath, hdclear⟩
            · exact hall2 d2 hd2
          · intro e herr
            rw [hstep] at herr
            exact hih.2 e herr

theorem ccSpec_succ (g : List (String × List String)) (fuel : Nat)
    (hcl : ClSpec g fuel) : CcSpec g (fuel + 1) := by
  intro file path visited hfile hvis hcount hchain hinv
  by_cases hpath : file ∈ path
  · have hstep : checkCircular g (fuel + 1) file path visited
        = .error (cycleMessage (dropToMember file path ++ [file])) := by
      simp [checkCircular, hpath]
    constructor
    · intro v hok
      rw [hstep] at hok
      exact Except.noConfusion hok
    · intro e herr
      rw [hstep] at herr
      rcases Except.error.inj herr with rfl
      exact ⟨dropToMember file path ++ [file],
        cycleOf_mem_path g file path hpath hchain, rfl⟩
  · by_cases hvisited : file ∈ visited
    · have hstep : checkCircular g (fuel + 1) file path visited = .ok visited := by
        simp [checkCircular, hpath, hvisited]
      constructor
      · intro v hok
        rw [hstep] at hok
        rcases Except.ok.inj hok with rfl
        exact ⟨fun x hx => hx, hvis, hvisited, hinv⟩
      · intro e herr
        rw [hstep] at herr
        exact Except.noConfusion herr
    · have hstep : checkCircular g (fuel + 1) file path visited
          = checkCircularList g fuel (depsOf g file) (path ++ [file])
              (file :: visited) := by
        simp [checkCircular, hpath, hvisited]
      have hvis2 : ∀ x ∈ file :: visited, x ∈ graphNodes g := by
        intro x hx
        rcases List.mem_cons.mp hx with rfl | hx
        · exact hfile
        · exact hvis x hx
      have hcount2 : countRem g (file :: visited) < fuel := by
        have h1 := countRem_cons_lt g file visited hfile hvisited
        omega
      have hpne : path ++ [file] ≠ [] := by simp
      have hlast2 : ∀ d ∈ depsOf g file, ∀ x,
          (path ++ [file]).getLast? = some x → EdgeIn g x d := by
        intro d hd x hx
        rw [List.getLast?_concat] at hx
        rcases Option.some.inj hx with rfl
        exact hd
      have hinv2 : InvClear g (path ++ [file]) (file :: visited) := by
        intro b hb hbp
        rcases List.mem_cons.mp hb with rfl | hb
        · exact absurd (List.mem_append.mpr (Or.inr (List.mem_singleton.mpr rfl))) hbp
        · exact hinv b hb (fun hmem => hbp (List.mem_append.mpr (Or.inl hmem)))
      have hds : ∀ d ∈ depsOf g file, d ∈ graphNodes g :=
        fun d hd => depsOf_subset_nodes g file d hd
      have hclres := hcl (depsOf g file) (path ++ [file]) (file :: visited)
        hds hvis2 hcount2 hchain hpne hlast2 hinv2
      constructor
      · intro v hok
        rw [hstep] at hok
        rcases hclres.1 v hok with ⟨hs, hn, hi, hall⟩
        have hfileclear : ClearOf g file := by
          intro w hreach
          cases hreach with
          | refl =>
              intro hcyc
              rcases hcyc with ⟨d, hedge, hreach2⟩
              exact (hall d hedge).2.2 file hreach2 ⟨d, hedge, hreach2⟩
          | step hedge hreach2 =>
              exact (hall _ hedge).2.2 w hreach2
        refine ⟨fun x hx => hs x (List.mem_cons_of_mem _ hx), hn,
          hs file (List.mem_cons_self _ _), ?_⟩
        intro b hb hbp
        by_cases hbf : b = file
        · rw [hbf]
          exact hfileclear
        · refine hi b hb ?_
          intro hmem
          rcases List.mem_append.mp hmem with h2 | h2
          · exact hbp h2
          · exact hbf (List.mem_singleton.mp h2)
      · intro e herr
        rw [hstep] at herr
        exact hclres.2 e herr

theorem ccSpec_all (g : List (String × List String)) : ∀ fuel, CcSpec g fuel
  | 0 => ccSpec_zero g
  | fuel + 1 => ccSpec_succ g fuel (clSpec_of_ccSpec g fuel (ccSpec_all g fuel))

theorem checkAllFiles_spec (g : List (String × List String)) (fuel : Nat) :
    ∀ (ks : List String) (visited : List String),
    (∀ k ∈ ks, k ∈ graphNodes g) →
    (∀ x ∈ visited, x ∈ graphNodes g) →
    countRem g visited < fuel →
    InvClear g [] visited →
    (∀ v, checkAllFiles g fuel ks visited = .ok v →
      (∀ x ∈ visited, x ∈ v) ∧ (∀ x ∈ v, x ∈ graphNodes g) ∧
        (∀ k ∈ ks, k ∈ v) ∧ InvClear g [] v) ∧
    (∀ e, checkAllFiles g fuel ks visited = .error e →
      ∃ c, IsCycleIn g c ∧ e = cycleMessage c) := by
  intro ks
  induction ks with
  | nil =>
      intro visited _ hvis _ hinv
      constructor
      · intro v hok
        rcases Except.ok.inj hok with rfl
        exact ⟨fun x hx => hx, hvis, fun k hk => absurd hk (List.not_mem_nil k), hinv⟩
      · intro e herr
        exact Except.noConfusion herr
  | cons k rest ih =>
      intro visited hks hvis hcount hinv
      have hknode : k ∈ graphNodes g := hks k (List.mem_cons_self _ _)
      have hchain : List.Chain' (EdgeIn g) ([] ++ [k]) := by
        simp only [List.nil_append]
        exact List.chain'_singleton k
      have hcc := ccSpec_all g fuel k [] visited hknode hvis hcount hchain
        (fun b hb hbp => hinv b hb hbp)
      cases hres : checkCircular g fuel k [] visited with
      | error e =>
          have hstep : checkAllFiles g fuel (k :: rest) visited = .error e := by
            simp [checkAllFiles, hres]
          constructor
          · intro v hok
            rw [hstep] at hok
            exact Except.noConfusion hok
          · intro e2 herr
            rw [hstep] at herr
            rcases Except.error.inj herr with rfl
            exact hcc.2 e hres
      | ok v1 =>
          rcases hcc.1 v1 hres with ⟨hsub1, hnodes1, hkin1, hinv1⟩
          have hcount1 : countRem g v1 < fuel :=
            lt_of_le_of_lt (countRem_mono g visited v1 hsub1) hcount
          have hstep : checkAllFiles g fuel (k :: rest) visited
              = checkAllFiles g fuel rest v1 := by
            simp [checkAllFiles, hres]
          have hih := ih v1 (fun k2 hk2 => hks k2 (List.mem_cons_of_mem _ hk2))
            hnodes1 hcount1 hinv1
          constructor
          · intro v hok
            rw [hstep] at hok
            rcases hih.1 v hok with ⟨hs2, hn2, hk2, hi2⟩
            refine ⟨fun x hx => hs2 x (hsub1 x hx), hn2, ?_, hi2⟩
            intro k2 hk2mem
            rcases List.mem_cons.mp hk2mem with rfl | hk2mem
            · exact hs2 k2 hkin1
            · exact hk2 k2 hk2mem
          · intro e herr
            rw [hstep] at herr
            exact hih.2 e herr

/-- **C2.** For every dependency graph containing a cycle among the output
files (and anchor locations passing the path assertions that precede the
cycle check), `_validate_dependencies` fails, the error message reports a
genuine cycle of the graph as the ordered `A -> B -> ... -> A` path, and the
pipeline of `main` — analysis/validation before `write_split_files` — fails
with that same error, so the write phase is never entered and no output is
produced. -/
theorem validateDependencies_cycle_error (isAbs : String → Bool)
    (t : YAMLDependencyTracker) (stf : List (String × String))
    (relp : String → String → String) (slash dirname : String → String)
    (serialize : List YEvent → String) (eventsByFile : List (String × List YEvent))
    (c : List String) (hcyc : IsCycleIn t.file_dependencies c)
    (hanch : ∀ kv ∈ t.anchor_locations, isAbs kv.2 = true) :
    ∃ c2, IsCycleIn t.file_dependencies c2 ∧
      validateDependencies isAbs t stf = .error (cycleMessage c2) ∧
      splitPipeline isAbs t stf relp slash dirname serialize eventsByFile
        = .error (cycleMessage c2) := by
  have hcount : countRem t.file_dependencies [] < dependencyFuel t.file_dependencies := by
    unfold countRem dependencyFuel
    have h1 : ([] : List String).toFinset = ∅ := rfl
    rw [h1, Finset.sdiff_empty]
    have h2 := List.toFinset_card_le (graphNodes t.file_dependencies)
    omega
  have hspec := checkAllFiles_spec t.file_dependencies
    (dependencyFuel t.file_dependencies) (graphKeys t.file_dependencies) []
    (fun k hk => keys_subset_nodes t.file_dependencies k hk)
    (fun x hx => absurd hx (List.not_mem_nil x)) hcount
    (fun b hb _ => absurd hb (List.not_mem_nil b))
  cases hres : checkAllFiles t.file_dependencies (dependencyFuel t.file_dependencies)
      (graphKeys t.file_dependencies) [] with
  | ok v =>
      exfalso
      rcases hspec.1 v hres with ⟨_, _, hkeys, hinv⟩
      rcases cycle_gives_cycAt t.file_dependencies c hcyc with ⟨v0, hv0keys, hv0cyc⟩
      have hv0clear : ClearOf t.file_dependencies v0 :=
        hinv v0 (hkeys v0 hv0keys) (List.not_mem_nil v0)
      exact clear_not_cycAt t.file_dependencies v0 hv0clear hv0cyc
  | error e =>
      rcases hspec.2 e hres with ⟨c2, hc2, rfl⟩
      have hval : validateDependencies isAbs t stf = .error (cycleMessage c2) := by
        unfold validateDependencies
        rw [anchorsPathCheck_ok isAbs t.anchor_locations hanch, hres]
      have hpipe : splitPipeline isAbs t stf relp slash dirname serialize eventsByFile
          = .error (cycleMessage c2) := by
        unfold splitPipeline
        rw [hval]
      exact ⟨c2, hc2, hval, hpipe⟩

theorem validateDependencies_cycle_error_witness :
    ∃ c2, IsCycleIn
        (YAMLDependencyTracker.mk [] [("A", ["B"]), ("B", ["A"])]).file_dependencies c2 ∧
      validateDependencies (fun _ => true)
          (YAMLDependencyTracker.mk [] [("A", ["B"]), ("B", ["A"])]) []
        = .error (cycleMessage c2) ∧
      splitPipeline (fun _ => true)
          (YAMLDependencyTracker.mk [] [("A", ["B"]), ("B", ["A"])]) []
          (fun d _ => d) id id (fun _ => "") []
        = .error (cycleMessage c2) :=
  validateDependencies_cycle_error (fun _ => true)
    (YAMLDependencyTracker.mk [] [("A", ["B"]), ("B", ["A"])]) []
    (fun d _ => d) id id (fun _ => "") [] (["A", "B", "A"])
    ⟨by decide, (chainEdgeB_iff _ _).mp (by decide), by decide⟩
    (fun kv hkv => absurd hkv (List.not_mem_nil kv))
